import Mathlib

/-!
Shallow embedding of the path module of the `littlefs2` crate
(source file `src/path.rs`): validated ASCII path views, owned
fixed-capacity path buffers, the two total orders `cmp_str` and
`cmp_lfs`, decomposition (`file_name`, `parent`, the `Ancestors`
iterator), buffer mutation (`push`, `join`), fallible construction
(`from_bytes_with_nul`, `from_cstr`) and the serde byte round-trip.

A path view is modelled by its content bytes, that is the bytes that
come before the terminating nul byte; machine bytes are modelled by
`Nat`.  Recursive operations are defined with an explicit fuel
argument bounded by the length of the input so that every definition
is structurally recursive and kernel-computable; a congruence lemma
shows the fuel is irrelevant as soon as it is at least the length of
the input, which is how the top-level wrappers invoke them.
-/

namespace LittleFS

/-- Modelled from the spec: the capacity constant `consts::PATH_MAX` lives in
the crate's `consts` module, which is not among the sources here; the spec
fixes only that it bounds the content length (excluding the terminator) and
that the buffer capacity is `PATH_MAX + 1`.  We use the crate's configured
value 255. -/
def PATH_MAX : Nat := 255

/-- Buffer capacity, `consts::PATH_MAX_PLUS_ONE`. -/
def PATH_MAX_PLUS_ONE : Nat := PATH_MAX + 1

/-- Content bytes of a path, excluding the trailing nul terminator. -/
abbrev Bytes := List Nat

/-- A content byte of a valid path view is ASCII and not nul. -/
def validByte (b : Nat) : Bool := decide (b < 128) && decide (b ≠ 0)

/-- Validity of a path view: ASCII content with no interior nul, at most
`PATH_MAX` bytes long (the invariant of the `Path` type). -/
def isValidPath (p : Bytes) : Bool := p.all validByte && decide (p.length ≤ PATH_MAX)

/-- Propositional form of `isValidPath`. -/
abbrev ValidPath (p : Bytes) : Prop := isValidPath p = true

/-- Byte-slice comparison, as Rust's `Ord` on `[u8]`:
lexicographic, shorter-clean-prefix first. -/
def bytesCmp : Bytes → Bytes → Ordering
  | [], [] => .eq
  | [], _ :: _ => .lt
  | _ :: _, [] => .gt
  | x :: xs, y :: ys => if x < y then .lt else if y < x then .gt else bytesCmp xs ys

/-- Comparison of natural numbers as Rust's `Ord` on `usize`. -/
def natCmp (a b : Nat) : Ordering := if a < b then .lt else if b < a then .gt else .eq

/-- Model of `Path::cmp_str`: compares the underlying C strings, which is
byte-lexicographic comparison of the content bytes. -/
def cmp_str (a b : Bytes) : Ordering := bytesCmp a b

/-- Model of `Path::cmp_lfs`: compare the first `min` length bytes; on a tie
the longer path is first (`other.len().cmp(&this.len())`). -/
def cmp_lfs (a b : Bytes) : Ordering :=
  let m := min a.length b.length
  match bytesCmp (a.take m) (b.take m) with
  | .lt => .lt
  | .gt => .gt
  | .eq => natCmp b.length a.length

/-- Index of the last occurrence of `c`, as Rust's `Iterator::rposition`. -/
def rposition (c : Nat) : Bytes → Option Nat
  | [] => none
  | b :: bs =>
    match rposition c bs with
    | some i => some (i + 1)
    | none => if b = c then some 0 else none

/-- Model of `str::rsplit_once`: split at the last occurrence of `c`,
excluding the separator itself. -/
def rsplitOnce (c : Nat) (s : Bytes) : Option (Bytes × Bytes) :=
  match rposition c s with
  | none => none
  | some i => some (s.take i, s.drop (i + 1))

/-- Model of `Path::file_name`: rsplit the content-with-terminator at the
last slash; the result is the final segment without its terminator. -/
def file_name (s : Bytes) : Option Bytes :=
  if s = [] then none
  else
    match rsplitOnce 47 (s ++ [0]) with
    | none => none
    | some (_, tail) => if tail = [0] then none else some tail.dropLast

/-- Fueled model of `Path::parent` (the recursion strips one trailing slash
per step, so `s.length` fuel suffices). -/
def parentAux : Nat → Bytes → Option Bytes
  | 0, _ => none
  | fuel + 1, s =>
    match rposition 47 s with
    | none => none
    | some i =>
      if i = 0 ∧ s.length ≠ 1 then some [47]
      else if i + 1 = s.length then parentAux fuel (s.take i)
      else some (s.take i)

/-- Model of `Path::parent`. -/
def parent (s : Bytes) : Option Bytes := parentAux s.length s

/-- Fueled model of `<Ancestors as Iterator>::next`: the state is the
remaining path content; the result is the yielded item together with the
state after the call.  The inner recursive invocation models the
`self.next()` call whose yielded value is discarded when the final segment
is empty. -/
def ancestorsNextAux : Nat → Bytes → Option (Bytes × Bytes)
  | 0, _ => none
  | fuel + 1, s =>
    if s = [] then none
    else if s = [47] then some ([47], [])
    else
      match rsplitOnce 47 s with
      | none => some (s, [])
      | some (rem, name) =>
        let t := if s.head? = some 47 ∧ rem = [] then [47] else rem
        if name = [] then
          match ancestorsNextAux fuel t with
          | none => some (s, t)
          | some (_, u) => some (s, u)
        else some (s, t)

/-- Model of `<Ancestors as Iterator>::next`. -/
def ancestorsNext (s : Bytes) : Option (Bytes × Bytes) := ancestorsNextAux s.length s

/-- Fueled list of all items yielded by the `Ancestors` iterator. -/
def ancestorsListAux : Nat → Bytes → List Bytes
  | 0, _ => []
  | fuel + 1, s =>
    match ancestorsNext s with
    | none => []
    | some (item, t) => item :: ancestorsListAux fuel t

/-- All items yielded by `Path::ancestors`, in order. -/
def ancestorsList (s : Bytes) : List Bytes := ancestorsListAux s.length s

/-- Content with all trailing slash bytes removed (specification helper used
to characterise `parent`). -/
def stripSlashes : Bytes → Bytes
  | [] => []
  | b :: bs =>
    let r := stripSlashes bs
    if r = [] ∧ b = 47 then [] else b :: r

/-- Conversion errors of `path::Error`. -/
inductive PathError where
  | NotAscii
  | NotCStr
  | TooLarge
deriving DecidableEq

/-- No byte of the sequence is nul. -/
def noNul (v : Bytes) : Bool := v.all fun b => decide (b ≠ 0)

/-- Every byte of the sequence is ASCII, as `[u8]::is_ascii`. -/
def isAscii (v : Bytes) : Bool := v.all fun b => decide (b < 128)

/-- Model of `CStr::from_bytes_with_nul`: succeeds iff the sequence has a
final nul byte and no interior nul byte; the result is the content. -/
def cstrFromBytesWithNul (v : Bytes) : Option Bytes :=
  if v.getLast? = some 0 ∧ noNul v.dropLast = true then some v.dropLast else none

/-- Model of `Path::from_cstr`, acting on the content bytes of the C string:
reject content longer than `PATH_MAX`, then reject non-ASCII content. -/
def from_cstr (c : Bytes) : Except PathError Bytes :=
  if c.length > PATH_MAX then .error .TooLarge
  else if isAscii c = true then .ok c
  else .error .NotAscii

/-- Model of `Path::from_bytes_with_nul`: interpret as a C string (failing
with `NotCStr`), then validate via `from_cstr`. -/
def from_bytes_with_nul (v : Bytes) : Except PathError Bytes :=
  match cstrFromBytesWithNul v with
  | none => .error .NotCStr
  | some c => from_cstr c

/-- Model of `PathBuf`: the backing byte array and the length including the
final nul byte. -/
structure PathBuf where
  buf : Bytes
  len : Nat
deriving DecidableEq

/-- Model of `<PathBuf as Deref>::deref` composed with `Path::as_str`: the
content bytes are the first `len - 1` buffer bytes. -/
def PathBuf.deref (pb : PathBuf) : Bytes := pb.buf.take (pb.len - 1)

/-- Model of `PathBuf::new`: a zeroed buffer of the fixed capacity, length 1. -/
def PathBuf.new : PathBuf := ⟨List.replicate PATH_MAX_PLUS_ONE 0, 1⟩

/-- Model of `PathBuf::clear`: reset to the zeroed buffer, length 1. -/
def PathBuf.clear (_pb : PathBuf) : PathBuf := ⟨List.replicate PATH_MAX_PLUS_ONE 0, 1⟩

/-- The separator test of `PathBuf::push`: the last content byte exists and
is not a slash. -/
def sepNeeded (pb : PathBuf) : Bool :=
  match pb.deref.getLast? with
  | some b => decide (b ≠ 47)
  | none => false

/-- Model of `PathBuf::push`.  `none` models the assertion failure (panic)
when the combined length would exceed the fixed capacity.  The buffer
surgery mirrors the pointer writes: bytes before `len - 1` and from the new
length onwards are untouched; the optional separator, the new content and
the new nul terminator are written in between. -/
def PathBuf.push (pb : PathBuf) (p : Bytes) : Option PathBuf :=
  if p = [] then some pb
  else if p = [47] then some ⟨(pb.buf.set 0 47).set 1 0, 2⟩
  else
    let sep : Nat := if sepNeeded pb then 1 else 0
    if pb.len + p.length + sep ≤ PATH_MAX_PLUS_ONE then
      some ⟨pb.buf.take (pb.len - 1) ++ (if sepNeeded pb then [47] else []) ++ p ++ [0]
              ++ pb.buf.drop (pb.len + sep + p.length),
            pb.len + sep + p.length⟩
    else none

/-- Model of `<PathBuf as From>::from` on a path view: copy the content and
its terminator into a zeroed buffer; `none` models the assertion failure
when the content is longer than `PATH_MAX`. -/
def fromPath (p : Bytes) : Option PathBuf :=
  if p.length ≤ PATH_MAX then
    some ⟨p ++ [0] ++ List.replicate (PATH_MAX_PLUS_ONE - (p.length + 1)) 0, p.length + 1⟩
  else none

/-- Model of `<PathBuf as From>::from` on a byte slice: strip one optional
trailing nul, then assert no embedded nul, the length bound and ASCII-ness
(`none` models a panic), and copy into a zeroed buffer. -/
def fromBytes (v : Bytes) : Option PathBuf :=
  let w := if v ≠ [] ∧ v.getLast? = some 0 then v.dropLast else v
  if noNul w = true ∧ w.length ≤ PATH_MAX ∧ isAscii w = true then
    some ⟨w ++ List.replicate (PATH_MAX_PLUS_ONE - w.length) 0, w.length + 1⟩
  else none

/-- Model of `Path::join`: copy the left path into a buffer and push the
right path; `none` models a panic of either step. -/
def join (a b : Bytes) : Option Bytes :=
  match fromPath a with
  | none => none
  | some pb =>
    match pb.push b with
    | none => none
    | some pb2 => some pb2.deref

/-- Invariant of `PathBuf` (claim C10): full-capacity buffer, length between
1 and the capacity, nul at position `len - 1`, valid content bytes before it. -/
def invB (pb : PathBuf) : Bool :=
  decide (pb.buf.length = PATH_MAX_PLUS_ONE) && decide (1 ≤ pb.len) &&
  decide (pb.len ≤ PATH_MAX_PLUS_ONE) && decide (pb.buf.getD (pb.len - 1) 0 = 0) &&
  pb.deref.all validByte

/-- Propositional form of the `PathBuf` invariant. -/
abbrev PathBufInv (pb : PathBuf) : Prop := invB pb = true

/-- Model of `<PathBuf as Serialize>::serialize`: the content bytes, without
the terminator. -/
def serialize (pb : PathBuf) : Bytes := pb.deref

/-- Result of deserializing a byte sequence into a `PathBuf`:
`invalidLength` models the serde length error, `panicked` models a panic of
the `PathBuf::from` conversion. -/
inductive DeserializeResult where
  | invalidLength
  | panicked
  | ok (pb : PathBuf)
deriving DecidableEq

/-- Model of `<PathBuf as Deserialize>::deserialize` on a byte sequence. -/
def deserialize (v : Bytes) : DeserializeResult :=
  if v.length > PATH_MAX then .invalidLength
  else
    match fromBytes v with
    | some pb => .ok pb
    | none => .panicked

/-- One content is a strict byte-prefix of the other. -/
def strictPre (a b : Bytes) : Prop := a.length < b.length ∧ b.take a.length = a

/-! Lemmas about the two comparison functions. -/

theorem bytesCmp_self : ∀ a : Bytes, bytesCmp a a = .eq
  | [] => rfl
  | x :: xs => by simp [bytesCmp, bytesCmp_self xs]

theorem bytesCmp_eq_iff : ∀ a b : Bytes, bytesCmp a b = .eq ↔ a = b
  | [], [] => by simp [bytesCmp]
  | [], _ :: _ => by simp [bytesCmp]
  | _ :: _, [] => by simp [bytesCmp]
  | x :: xs, y :: ys => by
    rcases Nat.lt_trichotomy x y with h | h | h
    · simp [bytesCmp, h, Nat.ne_of_lt h]
    · subst h; simp [bytesCmp, bytesCmp_eq_iff xs ys]
    · simp [bytesCmp, h, Nat.lt_asymm h, (Nat.ne_of_lt h).symm]

theorem bytesCmp_swap : ∀ a b : Bytes, bytesCmp b a = (bytesCmp a b).swap
  | [], [] => rfl
  | [], _ :: _ => rfl
  | _ :: _, [] => rfl
  | x :: xs, y :: ys => by
    rcases Nat.lt_trichotomy x y with h | h | h
    · simp [bytesCmp, h, Nat.lt_asymm h, Ordering.swap]
    · subst h; simp [bytesCmp, bytesCmp_swap xs ys]
    · simp [bytesCmp, h, Nat.lt_asymm h, Ordering.swap]

theorem bytesCmp_trans : ∀ a b c : Bytes,
    bytesCmp a b = .lt → bytesCmp b c = .lt → bytesCmp a c = .lt
  | [], [], _ => by simp [bytesCmp]
  | [], _ :: _, [] => by intro _ h; simp [bytesCmp] at h
  | [], _ :: _, _ :: _ => by intros; simp [bytesCmp]
  | _ :: _, [], _ => by intro h; simp [bytesCmp] at h
  | _ :: _, _ :: _, [] => by intro _ h; simp [bytesCmp] at h
  | x :: xs, y :: ys, z :: zs => by
    intro h1 h2
    rcases Nat.lt_trichotomy x y with hxy | hxy | hxy
    · rcases Nat.lt_trichotomy y z with hyz | hyz | hyz
      · simp [bytesCmp, Nat.lt_trans hxy hyz]
      · subst hyz; simp [bytesCmp, hxy]
      · exfalso; simp [bytesCmp, hyz, Nat.lt_asymm hyz] at h2
    · subst hxy
      rcases Nat.lt_trichotomy x z with hxz | hxz | hxz
      · simp [bytesCmp, hxz]
      · subst hxz
        simp only [bytesCmp, Nat.lt_irrefl, if_false] at h1 h2 ⊢
        exact bytesCmp_trans xs ys zs h1 h2
      · exfalso; simp [bytesCmp, hxz, Nat.lt_asymm hxz] at h2
    · exfalso; simp [bytesCmp, hxy, Nat.lt_asymm hxy] at h1

theorem bytesCmp_append_same : ∀ p u v : Bytes, bytesCmp (p ++ u) (p ++ v) = bytesCmp u v
  | [], _, _ => rfl
  | x :: p, u, v => by simp [bytesCmp, bytesCmp_append_same p u v]

theorem natCmp_succ_succ (a b : Nat) : natCmp (a + 1) (b + 1) = natCmp a b := by
  simp [natCmp, Nat.succ_lt_succ_iff]

theorem natCmp_eq_iff (a b : Nat) : natCmp a b = .eq ↔ a = b := by
  unfold natCmp
  rcases Nat.lt_trichotomy a b with h | h | h
  · simp [h, Nat.ne_of_lt h]
  · simp [h]
  · simp [h, Nat.lt_asymm h, (Nat.ne_of_lt h).symm]

theorem natCmp_swap (a b : Nat) : natCmp b a = (natCmp a b).swap := by
  unfold natCmp
  rcases Nat.lt_trichotomy a b with h | h | h
  · simp [h, Nat.lt_asymm h, Ordering.swap]
  · simp [h, Ordering.swap]
  · simp [h, Nat.lt_asymm h, Ordering.swap]

theorem natCmp_gt_of_lt {a b : Nat} (h : a < b) : natCmp b a = .gt := by
  simp [natCmp, h, Nat.lt_asymm h]

theorem cmp_lfs_nil_left (b : Bytes) : cmp_lfs [] b = natCmp b.length 0 := by
  simp [cmp_lfs, bytesCmp]

theorem cmp_lfs_nil_right (a : Bytes) : cmp_lfs a [] = natCmp 0 a.length := by
  simp [cmp_lfs, bytesCmp]

theorem cmp_lfs_cons_cons (x y : Nat) (xs ys : Bytes) :
    cmp_lfs (x :: xs) (y :: ys) =
      if x < y then .lt else if y < x then .gt else cmp_lfs xs ys := by
  simp only [cmp_lfs, List.length_cons, Nat.succ_min_succ, List.take_succ_cons, bytesCmp]
  by_cases h1 : x < y
  · simp [h1]
  · by_cases h2 : y < x
    · simp [h1, h2]
    · simp only [h1, h2, if_false]
      cases hbc : bytesCmp (xs.take (min xs.length ys.length)) (ys.take (min xs.length ys.length)) <;>
        simp [hbc, natCmp_succ_succ]

theorem cmp_lfs_eq_iff : ∀ a b : Bytes, cmp_lfs a b = .eq ↔ a = b
  | [], [] => by simp [cmp_lfs, bytesCmp, natCmp]
  | [], y :: ys => by simp [cmp_lfs_nil_left, natCmp]
  | x :: xs, [] => by simp [cmp_lfs_nil_right, natCmp]
  | x :: xs, y :: ys => by
    rw [cmp_lfs_cons_cons]
    rcases Nat.lt_trichotomy x y with h | h | h
    · simp [h, Nat.ne_of_lt h]
    · subst h; simp [Nat.lt_irrefl, cmp_lfs_eq_iff xs ys]
    · simp [h, Nat.lt_asymm h, (Nat.ne_of_lt h).symm]

theorem cmp_lfs_swap : ∀ a b : Bytes, cmp_lfs b a = (cmp_lfs a b).swap
  | [], b => by rw [cmp_lfs_nil_left, cmp_lfs_nil_right, natCmp_swap]
  | a, [] => by rw [cmp_lfs_nil_left, cmp_lfs_nil_right, natCmp_swap]
  | x :: xs, y :: ys => by
    rw [cmp_lfs_cons_cons, cmp_lfs_cons_cons]
    rcases Nat.lt_trichotomy x y with h | h | h
    · simp [h, Nat.lt_asymm h, Ordering.swap]
    · subst h; simp [Nat.lt_irrefl, cmp_lfs_swap xs ys]
    · simp [h, Nat.lt_asymm h, Ordering.swap]

theorem isAscii_cons {x : Nat} {xs : Bytes} (h : isAscii (x :: xs) = true) :
    x < 128 ∧ isAscii xs = true := by
  simpa [isAscii] using h

theorem cmp_lfs_sentinel : ∀ a b : Bytes, isAscii a = true → isAscii b = true →
    cmp_lfs a b = bytesCmp (a ++ [128]) (b ++ [128])
  | [], [] => by intros; simp [cmp_lfs, bytesCmp, natCmp]
  | [], y :: ys => by
    intro _ hb
    obtain ⟨hy, _⟩ := isAscii_cons hb
    rw [cmp_lfs_nil_left]
    simp [bytesCmp, natCmp, hy, Nat.lt_asymm hy]
  | x :: xs, [] => by
    intro ha _
    obtain ⟨hx, _⟩ := isAscii_cons ha
    rw [cmp_lfs_nil_right]
    simp [bytesCmp, natCmp, hx]
  | x :: xs, y :: ys => by
    intro ha hb
    obtain ⟨_, ha'⟩ := isAscii_cons ha
    obtain ⟨_, hb'⟩ := isAscii_cons hb
    rw [cmp_lfs_cons_cons]
    simp only [List.cons_append, bytesCmp]
    rcases Nat.lt_trichotomy x y with h | h | h
    · simp [h]
    · subst h; simp [Nat.lt_irrefl, cmp_lfs_sentinel xs ys ha' hb']
    · simp [h, Nat.lt_asymm h]

theorem validPath_isAscii {p : Bytes} (h : ValidPath p) : isAscii p = true := by
  simp only [ValidPath, isValidPath, Bool.and_eq_true] at h
  simp only [isAscii, List.all_eq_true]
  intro b hb
  have := h.1
  simp only [List.all_eq_true, validByte, Bool.and_eq_true, decide_eq_true_eq] at this
  exact decide_eq_true (this b hb).1

theorem strictPre_cons {x y : Nat} {xs ys : Bytes} :
    strictPre (x :: xs) (y :: ys) ↔ y = x ∧ strictPre xs ys := by
  simp only [strictPre, List.length_cons, Nat.succ_lt_succ_iff, List.take_succ_cons,
    List.cons.injEq]
  tauto

theorem cmp_agree : ∀ a b : Bytes, ¬ strictPre a b → ¬ strictPre b a → cmp_str a b = cmp_lfs a b
  | [], [] => by intros; rfl
  | [], y :: ys => by
    intro h _
    exact absurd ⟨by simp, by simp⟩ h
  | x :: xs, [] => by
    intro _ h
    exact absurd ⟨by simp, by simp⟩ h
  | x :: xs, y :: ys => by
    intro h1 h2
    rw [cmp_lfs_cons_cons]
    rcases Nat.lt_trichotomy x y with h | h | h
    · simp [cmp_str, bytesCmp, h]
    · subst h
      simp only [cmp_str, bytesCmp, Nat.lt_irrefl, if_false]
      exact cmp_agree xs ys (fun hp => h1 (strictPre_cons.mpr ⟨rfl, hp⟩))
        (fun hp => h2 (strictPre_cons.mpr ⟨rfl, hp⟩))
    · simp [cmp_str, bytesCmp, h, Nat.lt_asymm h]

theorem cmp_disagree_of_pre {a b : Bytes} (h : strictPre a b) :
    cmp_str a b = .lt ∧ cmp_lfs a b = .gt := by
  obtain ⟨hlen, htake⟩ := h
  constructor
  · obtain ⟨z, zs, hdrop⟩ : ∃ z zs, b.drop a.length = z :: zs := by
      cases hd : b.drop a.length with
      | nil =>
        exfalso
        have := List.length_drop a.length b
        rw [hd] at this
        simp at this
        omega
      | cons z zs => exact ⟨z, zs, rfl⟩
    have hb : b = a ++ z :: zs := by
      conv_lhs => rw [← List.take_append_drop a.length b]
      rw [htake, hdrop]
    have hstep : bytesCmp (a ++ []) (a ++ z :: zs) = bytesCmp [] (z :: zs) :=
      bytesCmp_append_same a [] (z :: zs)
    rw [List.append_nil] at hstep
    show bytesCmp a b = .lt
    rw [hb, hstep]
    simp [bytesCmp]
  · have hm : min a.length b.length = a.length := Nat.min_eq_left (Nat.le_of_lt hlen)
    simp only [cmp_lfs, hm, List.take_length, htake, bytesCmp_self]
    exact natCmp_gt_of_lt hlen

theorem cmp_lfs_first_diff : ∀ (i : Nat) (a b : Bytes), i < min a.length b.length →
    (∀ j, j < i → a.getD j 0 = b.getD j 0) → a.getD i 0 ≠ b.getD i 0 →
    cmp_lfs a b = if a.getD i 0 < b.getD i 0 then .lt else .gt
  | _, [], _ => by simp
  | _, _ :: _, [] => by simp
  | 0, x :: xs, y :: ys => by
    intro _ _ hne
    simp only [List.getD_cons_zero] at hne ⊢
    rw [cmp_lfs_cons_cons]
    rcases Nat.lt_trichotomy x y with h | h | h
    · simp [h]
    · exact absurd h hne
    · simp [h, Nat.lt_asymm h]
  | i + 1, x :: xs, y :: ys => by
    intro hlt hpre hne
    have hx : x = y := by simpa using hpre 0 (Nat.succ_pos i)
    subst hx
    rw [cmp_lfs_cons_cons]
    simp only [Nat.lt_irrefl, if_false, List.getD_cons_succ] at hne ⊢
    exact cmp_lfs_first_diff i xs ys (by simp at hlt ⊢; omega)
      (fun j hj => by simpa using hpre (j + 1) (by omega)) hne

theorem cmp_lfs_of_agree : ∀ a b : Bytes,
    (∀ j, j < min a.length b.length → a.getD j 0 = b.getD j 0) →
    cmp_lfs a b = natCmp b.length a.length
  | [], b => by intro; rw [cmp_lfs_nil_left]; rfl
  | x :: xs, [] => by intro; rw [cmp_lfs_nil_right]; rfl
  | x :: xs, y :: ys => by
    intro h
    have hx : x = y := by
      simpa using h 0 (by simp)
    subst hx
    rw [cmp_lfs_cons_cons]
    simp only [Nat.lt_irrefl, if_false, List.length_cons, natCmp_succ_succ]
    exact cmp_lfs_of_agree xs ys (fun j hj => by simpa using h (j + 1) (by simp at hj ⊢; omega))

/-- C1: for every pair of valid paths, `cmp_lfs` compares the content bytes
over the shorter of the two lengths; a first strict byte difference within
that common length determines the result, and otherwise (one content is a
byte-prefix of the other, or they are equal) the longer path orders strictly
first, so in particular the path `some_path` compares `Greater` to the path
`some_path_a`. -/
theorem cmp_lfs_spec :
    (∀ a b : Bytes, ValidPath a → ValidPath b →
      (∀ i, i < min a.length b.length →
        (∀ j, j < i → a.getD j 0 = b.getD j 0) → a.getD i 0 ≠ b.getD i 0 →
        cmp_lfs a b = if a.getD i 0 < b.getD i 0 then .lt else .gt)
      ∧ ((∀ j, j < min a.length b.length → a.getD j 0 = b.getD j 0) →
        cmp_lfs a b = natCmp b.length a.length))
    ∧ cmp_lfs [115, 111, 109, 101, 95, 112, 97, 116, 104]
        [115, 111, 109, 101, 95, 112, 97, 116, 104, 95, 97] = .gt := by
  refine ⟨fun a b _ _ => ⟨fun i hi hpre hne => cmp_lfs_first_diff i a b hi hpre hne,
    fun h => cmp_lfs_of_agree a b h⟩, ?_⟩
  decide

/-- Witness for C1 at a concrete input: the paths `a` and `b` differ at
index 0, which determines the filesystem order. -/
theorem cmp_lfs_spec_witness : cmp_lfs [97] [98] = .lt := by
  have h := (cmp_lfs_spec.1 [97] [98] (by decide) (by decide)).1 0 (by decide)
    (fun j hj => absurd hj (Nat.not_lt_zero j)) (by decide)
  simpa using h

theorem isValidPath_of {w : Bytes} (h0 : noNul w = true) (h1 : isAscii w = true)
    (h2 : w.length ≤ PATH_MAX) : ValidPath w := by
  show isValidPath w = true
  simp only [isValidPath, Bool.and_eq_true, List.all_eq_true]
  constructor
  · intro b hb
    simp only [noNul, List.all_eq_true, decide_eq_true_eq] at h0
    simp only [isAscii, List.all_eq_true, decide_eq_true_eq] at h1
    simp [validByte, h0 b hb, h1 b hb]
  · exact decide_eq_true h2

/-! Lemmas about `rposition` and `rsplitOnce`. -/

theorem rposition_cons (c b : Nat) (bs : Bytes) : rposition c (b :: bs) =
    match rposition c bs with
    | some i => some (i + 1)
    | none => if b = c then some 0 else none := rfl

theorem rposition_append_none (c : Nat) (t : Bytes) (ht : rposition c t = none) :
    ∀ s : Bytes, rposition c (s ++ t) = rposition c s
  | [] => by simpa [rposition] using ht
  | b :: s => by
    rw [List.cons_append, rposition_cons, rposition_append_none c t ht s, rposition_cons]

theorem rposition_append_some (c : Nat) (t : Bytes) (j : Nat) (ht : rposition c t = some j) :
    ∀ s : Bytes, rposition c (s ++ t) = some (s.length + j)
  | [] => by simpa [rposition] using ht
  | b :: s => by
    rw [List.cons_append, rposition_cons, rposition_append_some c t j ht s]
    simp
    omega

theorem rposition_lt (c : Nat) : ∀ (s : Bytes) (i : Nat), rposition c s = some i → i < s.length
  | [], i => by simp [rposition]
  | b :: bs, i => by
    rw [rposition_cons]
    cases h2 : rposition c bs with
    | some j =>
      intro h
      simp only [Option.some.injEq] at h
      have := rposition_lt c bs j h2
      simp only [List.length_cons]
      omega
    | none =>
      by_cases hbc : b = c
      · rw [if_pos hbc]
        intro h
        simp only [Option.some.injEq] at h
        simp only [List.length_cons]
        omega
      · rw [if_neg hbc]
        intro h
        cases h

theorem rposition_getD (c : Nat) : ∀ (s : Bytes) (i : Nat),
    rposition c s = some i → s.getD i 0 = c
  | [], i => by simp [rposition]
  | b :: bs, i => by
    rw [rposition_cons]
    cases h2 : rposition c bs with
    | some j =>
      intro h
      simp only [Option.some.injEq] at h
      subst h
      simpa using rposition_getD c bs j h2
    | none =>
      by_cases hbc : b = c
      · rw [if_pos hbc]
        intro h
        simp only [Option.some.injEq] at h
        subst h
        simpa using hbc
      · rw [if_neg hbc]
        intro h
        cases h

theorem rposition_eq_none (c : Nat) : ∀ s : Bytes, (rposition c s = none ↔ ∀ b ∈ s, b ≠ c)
  | [] => by simp [rposition]
  | b :: bs => by
    have ih := rposition_eq_none c bs
    rw [rposition_cons]
    cases h2 : rposition c bs with
    | some j =>
      have hnot : ¬ ∀ x ∈ bs, x ≠ c := by
        intro hall
        rw [ih.mpr hall] at h2
        cases h2
      constructor
      · intro h
        cases h
      · intro hall
        exact absurd (fun x hx => hall x (List.mem_cons_of_mem b hx)) hnot
    | none =>
      have hall := ih.mp h2
      constructor
      · intro h x hx
        rcases List.mem_cons.mp hx with hx | hx
        · subst hx
          intro hxc
          rw [if_pos hxc] at h
          cases h
        · exact hall x hx
      · intro h
        rw [if_neg (h b (List.mem_cons_self b bs))]

theorem rposition_of_getLast (c : Nat) : ∀ (s : Bytes), s.getLast? = some c →
    rposition c s = some (s.length - 1)
  | [] => by simp
  | [b] => by
    intro h
    simp only [List.getLast?_singleton, Option.some.injEq] at h
    simp [rposition, h]
  | b :: x :: xs => by
    intro h
    have h2 : (x :: xs).getLast? = some c := by
      rw [← h, List.getLast?_cons_cons]
    have ih := rposition_of_getLast c (x :: xs) h2
    rw [rposition_cons, ih]
    simp

theorem getLast_of_rposition_last (c : Nat) {s : Bytes} {i : Nat}
    (h : rposition c s = some i) (hlen : i + 1 = s.length) : s.getLast? = some c := by
  have hget := rposition_getD c s i h
  have hilt := rposition_lt c s i h
  rw [List.getLast?_eq_getElem? s]
  have hlen2 : s.length - 1 = i := by omega
  rw [hlen2]
  rw [List.getD_eq_getElem?_getD] at hget
  have hsome : s[i]? = some s[i] := List.getElem?_eq_getElem hilt
  rw [hsome] at hget
  simp only [Option.getD_some] at hget
  rw [hsome, hget]

/-! Lemmas about `file_name`. -/

theorem rposition_concat_zero (s : Bytes) : rposition 47 (s ++ [0]) = rposition 47 s :=
  rposition_append_none 47 [0] rfl s

theorem file_name_eq_none_iff {p : Bytes} :
    file_name p = none ↔ p = [] ∨ rposition 47 p = none ∨ p.getLast? = some 47 := by
  by_cases hpnil : p = []
  · simp [file_name, hpnil]
  · cases hi : rposition 47 p with
    | none => simp [file_name, hpnil, rsplitOnce, rposition_concat_zero, hi]
    | some i =>
      have hilt : i < p.length := rposition_lt 47 p i hi
      have hdrop : (p ++ [0]).drop (i + 1) = p.drop (i + 1) ++ [0] :=
        List.drop_append_of_le_length (by omega)
      simp only [file_name, hpnil, if_neg, rsplitOnce, rposition_concat_zero, hi, hdrop]
      by_cases hend : i + 1 = p.length
      · have hdnil : p.drop (i + 1) = [] := by
          apply List.drop_eq_nil_of_le
          omega
        have hlast : p.getLast? = some 47 := getLast_of_rposition_last 47 hi hend
        simp [hdnil, hlast]
      · have hdne : p.drop (i + 1) ≠ [] := by
          intro hnil
          have := List.length_drop (i + 1) p
          rw [hnil] at this
          simp at this
          omega
        have htail : p.drop (i + 1) ++ [0] ≠ [0] := by
          intro he
          cases hd : p.drop (i + 1) with
          | nil => exact hdne hd
          | cons z zs =>
            rw [hd] at he
            have := congrArg List.length he
            simp at this
        have hlast : ¬ p.getLast? = some 47 := by
          intro hl
          have := rposition_of_getLast 47 p hl
          rw [hi] at this
          simp only [Option.some.injEq] at this
          omega
        simp [htail, hlast, hend]

theorem file_name_eq_some {p : Bytes} {i : Nat} (h : rposition 47 p = some i)
    (hlast : p.getLast? ≠ some 47) : file_name p = some (p.drop (i + 1)) := by
  have hpnil : p ≠ [] := by
    intro hnil
    subst hnil
    simp [rposition] at h
  have hilt : i < p.length := rposition_lt 47 p i h
  have hdrop : (p ++ [0]).drop (i + 1) = p.drop (i + 1) ++ [0] :=
    List.drop_append_of_le_length (by omega)
  have hend : i + 1 ≠ p.length := by
    intro he
    exact hlast (getLast_of_rposition_last 47 h he)
  have hdne : p.drop (i + 1) ≠ [] := by
    intro hnil
    have := List.length_drop (i + 1) p
    rw [hnil] at this
    simp at this
    omega
  have htail : p.drop (i + 1) ++ [0] ≠ [0] := by
    intro he
    cases hd : p.drop (i + 1) with
    | nil => exact hdne hd
    | cons z zs =>
      rw [hd] at he
      have := congrArg List.length he
      simp at this
  simp [file_name, hpnil, rsplitOnce, rposition_concat_zero, h, hdrop, htail]

/-- C4 counterexample: the relative single-segment path with content byte 97
(the path consisting of the letter a alone) is valid, is not empty, is not
the root, and does not end with a slash, yet `file_name` returns nothing on
it, because the content contains no slash at all. -/
theorem file_name_spec_cex :
    ValidPath [97] ∧ [97] ≠ ([] : Bytes) ∧ [97] ≠ [47] ∧ ([97] : Bytes).getLast? ≠ some 47
      ∧ file_name [97] = none := by decide

/-- C4 amended: for every valid path `p`, `file_name` returns the final
slash-delimited segment of `p`, and returns nothing exactly when `p` is
empty, contains no slash at all (which covers relative single-segment
paths), or ends with a trailing slash (which covers the root path); in
particular the final segment of the path /some/path/file.ext is file.ext
and a trailing slash yields nothing. -/
theorem file_name_spec :
    (∀ p : Bytes, ValidPath p →
      (file_name p = none ↔ p = [] ∨ rposition 47 p = none ∨ p.getLast? = some 47)
      ∧ (∀ i, rposition 47 p = some i → p.getLast? ≠ some 47 →
          file_name p = some (p.drop (i + 1))))
    ∧ file_name [47, 115, 111, 109, 101, 47, 112, 97, 116, 104, 47, 102, 105, 108, 101,
        46, 101, 120, 116] = some [102, 105, 108, 101, 46, 101, 120, 116]
    ∧ file_name [47, 115, 111, 109, 101, 47, 112, 97, 116, 104, 47, 102, 105, 108, 101,
        46, 101, 120, 116, 47] = none := by
  refine ⟨fun p _ => ⟨file_name_eq_none_iff, fun i hi hl => file_name_eq_some hi hl⟩,
    by decide, by decide⟩

/-- Witness for C4 at a concrete input: the file name of the path /a is a. -/
theorem file_name_spec_witness : file_name [47, 97] = some [97] := by
  have h := (file_name_spec.1 [47, 97] (by decide)).2 0 (by decide) (by decide)
  simpa using h

/-- C2: `cmp_str` and `cmp_lfs` are strict total orders on valid paths; the
two orders agree on every pair whose contents are not in a strict prefix
relationship, and disagree (shorter-first versus longer-first) exactly on
the strict-prefix pairs. -/
theorem cmp_orders_spec :
    (∀ a b : Bytes, cmp_str a b = .eq ↔ a = b)
    ∧ (∀ a b : Bytes, cmp_str b a = (cmp_str a b).swap)
    ∧ (∀ a b c : Bytes, cmp_str a b = .lt → cmp_str b c = .lt → cmp_str a c = .lt)
    ∧ (∀ a b : Bytes, cmp_lfs a b = .eq ↔ a = b)
    ∧ (∀ a b : Bytes, cmp_lfs b a = (cmp_lfs a b).swap)
    ∧ (∀ a b c : Bytes, ValidPath a → ValidPath b → ValidPath c →
        cmp_lfs a b = .lt → cmp_lfs b c = .lt → cmp_lfs a c = .lt)
    ∧ (∀ a b : Bytes, ¬ strictPre a b → ¬ strictPre b a → cmp_str a b = cmp_lfs a b)
    ∧ (∀ a b : Bytes, strictPre a b → cmp_str a b = .lt ∧ cmp_lfs a b = .gt) := by
  refine ⟨bytesCmp_eq_iff, bytesCmp_swap, bytesCmp_trans, cmp_lfs_eq_iff, cmp_lfs_swap,
    ?_, cmp_agree, fun a b h => cmp_disagree_of_pre h⟩
  intro a b c ha hb hc h1 h2
  rw [cmp_lfs_sentinel a b (validPath_isAscii ha) (validPath_isAscii hb)] at h1
  rw [cmp_lfs_sentinel b c (validPath_isAscii hb) (validPath_isAscii hc)] at h2
  rw [cmp_lfs_sentinel a c (validPath_isAscii ha) (validPath_isAscii hc)]
  exact bytesCmp_trans _ _ _ h1 h2

/-- Witness for C2 at concrete inputs: transitivity of the filesystem order
on three valid paths and disagreement of the two orders on a strict-prefix
pair. -/
theorem cmp_orders_spec_witness :
    cmp_lfs [97, 98] [97] = .lt ∧ cmp_lfs [97] [98] = .lt ∧ cmp_lfs [97, 98] [98] = .lt
      ∧ cmp_str [97] [97, 98] = .lt ∧ cmp_lfs [97] [97, 98] = .gt := by
  have htrans := cmp_orders_spec.2.2.2.2.2.1 [97, 98] [97] [98]
    (by decide) (by decide) (by decide) (by decide) (by decide)
  have hdis := cmp_orders_spec.2.2.2.2.2.2.2 [97] [97, 98] ⟨by decide, by decide⟩
  exact ⟨by decide, by decide, htrans, hdis.1, hdis.2⟩

/-! Lemmas about fallible construction. -/

theorem from_bytes_with_nul_ok (v : Bytes) (h1 : v.getLast? = some 0)
    (h2 : noNul v.dropLast = true) (h3 : v.dropLast.length ≤ PATH_MAX)
    (h4 : isAscii v.dropLast = true) : from_bytes_with_nul v = .ok v.dropLast := by
  have hcs : cstrFromBytesWithNul v = some v.dropLast := by
    rw [cstrFromBytesWithNul, if_pos ⟨h1, h2⟩]
  simp only [from_bytes_with_nul, hcs]
  rw [from_cstr, if_neg (by omega), if_pos h4]

theorem from_bytes_with_nul_not_cstr (v : Bytes)
    (h : ¬ (v.getLast? = some 0 ∧ noNul v.dropLast = true)) :
    from_bytes_with_nul v = .error .NotCStr := by
  have hcs : cstrFromBytesWithNul v = none := by
    rw [cstrFromBytesWithNul, if_neg h]
  simp only [from_bytes_with_nul, hcs]

theorem from_bytes_with_nul_too_large (v : Bytes) (h1 : v.getLast? = some 0)
    (h2 : noNul v.dropLast = true) (h3 : v.dropLast.length > PATH_MAX) :
    from_bytes_with_nul v = .error .TooLarge := by
  have hcs : cstrFromBytesWithNul v = some v.dropLast := by
    rw [cstrFromBytesWithNul, if_pos ⟨h1, h2⟩]
  simp only [from_bytes_with_nul, hcs]
  rw [from_cstr, if_pos h3]

theorem from_bytes_with_nul_not_ascii (v : Bytes) (h1 : v.getLast? = some 0)
    (h2 : noNul v.dropLast = true) (h3 : v.dropLast.length ≤ PATH_MAX)
    (h4 : ¬ isAscii v.dropLast = true) : from_bytes_with_nul v = .error .NotAscii := by
  have hcs : cstrFromBytesWithNul v = some v.dropLast := by
    rw [cstrFromBytesWithNul, if_pos ⟨h1, h2⟩]
  simp only [from_bytes_with_nul, hcs]
  rw [from_cstr, if_neg (by omega), if_neg h4]

/-- C3: fallible construction from bytes returns a valid path exactly when
the sequence has exactly one nul byte located at its final position, the
content before it is all-ASCII, and the content length is at most
`PATH_MAX`; otherwise it returns the C-string error (missing or interior
terminator), the too-long error, or the not-ASCII error respectively; and
`from_cstr` on the content of a C string (which has no interior nul)
succeeds exactly when the content is ASCII and short enough.  In particular
an interior nul, a non-ASCII byte and over-long content are all rejected. -/
theorem from_bytes_spec :
    (∀ v : Bytes,
      ((∃ c, from_bytes_with_nul v = .ok c) ↔
        v.getLast? = some 0 ∧ noNul v.dropLast = true ∧ isAscii v.dropLast = true
          ∧ v.dropLast.length ≤ PATH_MAX)
      ∧ (∀ c, from_bytes_with_nul v = .ok c → c = v.dropLast ∧ ValidPath c)
      ∧ (¬ (v.getLast? = some 0 ∧ noNul v.dropLast = true) →
          from_bytes_with_nul v = .error .NotCStr)
      ∧ (v.getLast? = some 0 → noNul v.dropLast = true → v.dropLast.length > PATH_MAX →
          from_bytes_with_nul v = .error .TooLarge)
      ∧ (v.getLast? = some 0 → noNul v.dropLast = true → v.dropLast.length ≤ PATH_MAX →
          ¬ isAscii v.dropLast = true → from_bytes_with_nul v = .error .NotAscii))
    ∧ (∀ c : Bytes, noNul c = true →
        (((∃ r, from_cstr c = .ok r) ↔ c.length ≤ PATH_MAX ∧ isAscii c = true)
          ∧ (∀ r, from_cstr c = .ok r → r = c ∧ ValidPath r)))
    ∧ from_bytes_with_nul [97, 98, 99, 0, 100, 101, 102, 0] = .error .NotCStr
    ∧ from_bytes_with_nul [200, 0] = .error .NotAscii
    ∧ from_bytes_with_nul (List.replicate (PATH_MAX + 1) 97 ++ [0]) = .error .TooLarge := by
  refine ⟨fun v => ⟨?_, ?_, from_bytes_with_nul_not_cstr v, from_bytes_with_nul_too_large v,
      from_bytes_with_nul_not_ascii v⟩, fun c hc => ⟨?_, ?_⟩, by rfl, by rfl, ?_⟩
  · constructor
    · intro ⟨c, hc⟩
      by_cases h1 : v.getLast? = some 0 ∧ noNul v.dropLast = true
      · obtain ⟨h1a, h1b⟩ := h1
        by_cases h3 : v.dropLast.length ≤ PATH_MAX
        · by_cases h4 : isAscii v.dropLast = true
          · exact ⟨h1a, h1b, h4, h3⟩
          · rw [from_bytes_with_nul_not_ascii v h1a h1b h3 h4] at hc
            cases hc
        · rw [from_bytes_with_nul_too_large v h1a h1b (by omega)] at hc
          cases hc
      · rw [from_bytes_with_nul_not_cstr v h1] at hc
        cases hc
    · intro ⟨h1, h2, h4, h3⟩
      exact ⟨v.dropLast, from_bytes_with_nul_ok v h1 h2 h3 h4⟩
  · intro c hok
    by_cases h1 : v.getLast? = some 0 ∧ noNul v.dropLast = true
    · obtain ⟨h1a, h1b⟩ := h1
      by_cases h3 : v.dropLast.length ≤ PATH_MAX
      · by_cases h4 : isAscii v.dropLast = true
        · rw [from_bytes_with_nul_ok v h1a h1b h3 h4] at hok
          cases hok
          exact ⟨rfl, isValidPath_of h1b h4 h3⟩
        · rw [from_bytes_with_nul_not_ascii v h1a h1b h3 h4] at hok
          cases hok
      · rw [from_bytes_with_nul_too_large v h1a h1b (by omega)] at hok
        cases hok
    · rw [from_bytes_with_nul_not_cstr v h1] at hok
      cases hok
  · constructor
    · intro ⟨r, hr⟩
      unfold from_cstr at hr
      by_cases h3 : c.length > PATH_MAX
      · rw [if_pos h3] at hr
        cases hr
      · rw [if_neg h3] at hr
        by_cases h4 : isAscii c = true
        · exact ⟨by omega, h4⟩
        · rw [if_neg h4] at hr
          cases hr
    · intro ⟨h3, h4⟩
      refine ⟨c, ?_⟩
      rw [from_cstr, if_neg (by omega), if_pos h4]
  · intro r hr
    unfold from_cstr at hr
    by_cases h3 : c.length > PATH_MAX
    · rw [if_pos h3] at hr
      cases hr
    · rw [if_neg h3] at hr
      by_cases h4 : isAscii c = true
      · rw [if_pos h4] at hr
        cases hr
        exact ⟨rfl, isValidPath_of hc h4 (by omega)⟩
      · rw [if_neg h4] at hr
        cases hr
  · apply from_bytes_with_nul_too_large
    · simp
    · rw [List.dropLast_concat]
      simp [noNul, List.all_eq_true, List.mem_replicate]
    · rw [List.dropLast_concat, List.length_replicate]
      omega

/-- Witness for C3 at a concrete input: the byte sequence holding the letter
a then a nul terminator is accepted and yields the valid path with content
the letter a. -/
theorem from_bytes_spec_witness :
    from_bytes_with_nul [97, 0] = .ok [97] ∧ ValidPath [97] := by
  obtain ⟨c, hc⟩ := (from_bytes_spec.1 [97, 0]).1.mpr ⟨by decide, by decide, by decide, by decide⟩
  obtain ⟨hceq, hval⟩ := (from_bytes_spec.1 [97, 0]).2.1 c hc
  subst hceq
  exact ⟨hc, hval⟩

/-! Lemmas about `parent`. -/

theorem parentAux_congr : ∀ (f g : Nat) (s : Bytes), s.length ≤ f → s.length ≤ g →
    parentAux f s = parentAux g s
  | 0, g, s => by
    intro hf _
    have hnil : s = [] := List.eq_nil_of_length_eq_zero (Nat.le_zero.mp hf)
    subst hnil
    cases g <;> simp [parentAux, rposition]
  | f + 1, 0, s => by
    intro _ hg
    have hnil : s = [] := List.eq_nil_of_length_eq_zero (Nat.le_zero.mp hg)
    subst hnil
    simp [parentAux, rposition]
  | f + 1, g + 1, s => by
    intro hf hg
    simp only [parentAux]
    cases hr : rposition 47 s with
    | none => rfl
    | some i =>
      have hilt := rposition_lt 47 s i hr
      show (if i = 0 ∧ s.length ≠ 1 then some [47]
          else if i + 1 = s.length then parentAux f (s.take i) else some (s.take i)) =
        (if i = 0 ∧ s.length ≠ 1 then some [47]
          else if i + 1 = s.length then parentAux g (s.take i) else some (s.take i))
      by_cases hg0 : i = 0 ∧ s.length ≠ 1
      · rw [if_pos hg0, if_pos hg0]
      · rw [if_neg hg0, if_neg hg0]
        by_cases he : i + 1 = s.length
        · rw [if_pos he, if_pos he]
          exact parentAux_congr f g (s.take i)
            (by simp only [List.length_take]; omega)
            (by simp only [List.length_take]; omega)
        · rw [if_neg he, if_neg he]

theorem exists_concat_of_getLast {s : Bytes} {c : Nat} (h : s.getLast? = some c) :
    ∃ t, s = t ++ [c] := by
  have hne : s ≠ [] := by
    intro hnil
    subst hnil
    simp at h
  refine ⟨s.dropLast, ?_⟩
  have hval := List.getLast?_eq_getLast s hne
  rw [hval] at h
  injection h with h
  conv_lhs => rw [← List.dropLast_append_getLast hne]
  rw [h]

theorem parent_concat_slash (s : Bytes) : parent (s ++ [47]) = parent s := by
  unfold parent
  have hlen : (s ++ [47]).length = s.length + 1 := by simp
  rw [hlen]
  have hrpos : rposition 47 (s ++ [47]) = some s.length := by
    simpa using rposition_append_some 47 [47] 0 rfl s
  simp only [parentAux, hrpos, hlen]
  simp [List.take_left]

theorem strip_concat_slash : ∀ s : Bytes, stripSlashes (s ++ [47]) = stripSlashes s
  | [] => rfl
  | b :: s => by
    have ih := strip_concat_slash s
    simp only [List.cons_append, stripSlashes, List.append_eq, ih]

theorem strip_of_getLast_ne : ∀ s : Bytes, s.getLast? ≠ some 47 → stripSlashes s = s
  | [] => fun _ => rfl
  | b :: s => by
    intro h
    cases hs : s with
    | nil =>
      subst hs
      have hb : ¬ b = 47 := by
        intro hb
        subst hb
        simp at h
      simp [stripSlashes, hb]
    | cons x xs =>
      rw [← hs]
      have hs' : s ≠ [] := by rw [hs]; simp
      have h2 : s.getLast? ≠ some 47 := by
        intro hl
        apply h
        rw [hs] at hl ⊢
        rw [← hl, List.getLast?_cons_cons]
      have ih := strip_of_getLast_ne s h2
      simp only [stripSlashes, ih]
      rw [if_neg (fun hc => hs' hc.1)]

theorem strip_getLast_ne : ∀ s : Bytes,
    stripSlashes s = [] ∨ (stripSlashes s).getLast? ≠ some 47
  | [] => Or.inl rfl
  | b :: s => by
    by_cases h : stripSlashes s = [] ∧ b = 47
    · left
      simp only [stripSlashes, if_pos h]
    · right
      simp only [stripSlashes, if_neg h]
      cases hq : stripSlashes s with
      | nil =>
        have hb : ¬ b = 47 := fun hb => h ⟨hq, hb⟩
        simpa using hb
      | cons x xs =>
        rw [List.getLast?_cons_cons]
        rcases strip_getLast_ne s with hnil | hlast
        · rw [hnil] at hq
          cases hq
        · rw [hq] at hlast
          exact hlast

theorem parent_strip_aux : ∀ (n : Nat) (s : Bytes), s.length ≤ n →
    parent s = parent (stripSlashes s)
  | 0, s => fun hn => by
    have hnil : s = [] := List.eq_nil_of_length_eq_zero (Nat.le_zero.mp hn)
    subst hnil
    rfl
  | n + 1, s => fun hn => by
    by_cases hl : s.getLast? = some 47
    · obtain ⟨t, ht⟩ := exists_concat_of_getLast hl
      subst ht
      rw [parent_concat_slash, strip_concat_slash]
      exact parent_strip_aux n t (by simp at hn; omega)
    · rw [strip_of_getLast_ne s hl]

theorem parent_strip (s : Bytes) : parent s = parent (stripSlashes s) :=
  parent_strip_aux s.length s (le_refl _)

theorem parent_of_no_trailing (q : Bytes) (hq : q.getLast? ≠ some 47) :
    parent q = match rposition 47 q with
      | none => none
      | some i => if i = 0 then some [47] else some (q.take i) := by
  cases hr : rposition 47 q with
  | none =>
    cases q with
    | nil => rfl
    | cons b bs =>
      show parentAux (bs.length + 1) (b :: bs) = none
      simp only [parentAux, hr]
  | some i =>
    have hilt := rposition_lt 47 q i hr
    have hne : ¬ i + 1 = q.length := by
      intro he
      exact hq (getLast_of_rposition_last 47 hr he)
    cases q with
    | nil => simp [rposition] at hr
    | cons b bs =>
      show parentAux (bs.length + 1) (b :: bs) = _
      simp only [parentAux, hr]
      by_cases h0 : i = 0
      · subst h0
        rw [if_pos ⟨rfl, by simp only [List.length_cons] at hne ⊢; omega⟩]
        simp
      · rw [if_neg (fun hc => h0 hc.1), if_neg hne]
        simp [h0]

theorem parent_eq (s : Bytes) : parent s =
    match rposition 47 (stripSlashes s) with
    | none => none
    | some i => if i = 0 then some [47] else some ((stripSlashes s).take i) := by
  rw [parent_strip s]
  apply parent_of_no_trailing
  rcases strip_getLast_ne s with h | h
  · rw [h]
    simp
  · exact h

/-- C5 counterexample: the path whose content is the letter a followed by a
slash contains a slash, yet `parent` returns nothing on it; moreover
`parent` applied to the content a//b yields a/ which ends with a trailing
empty segment.  Both facts contradict the claim as stated. -/
theorem parent_spec_cex :
    ValidPath [97, 47] ∧ (47 ∈ ([97, 47] : Bytes)) ∧ parent [97, 47] = none
      ∧ ValidPath [97, 47, 47, 98] ∧ parent [97, 47, 47, 98] = some [97, 47]
      ∧ ([97, 47] : Bytes).getLast? = some 47 := by decide

/-- C5 amended: for every valid path `p`, `parent` first strips the trailing
slash bytes of `p` (skipping the empty final segments), obtaining `q`; it
then returns nothing exactly when `q` contains no slash (which covers the
empty path, relative single-segment paths, and any of those followed by
trailing slashes, including the root); if the last slash of `q` is its
leading byte the result is exactly the root, and otherwise the result is
`q` truncated just before its last slash (which can itself end with an
empty segment when `p` has repeated interior slashes); in particular the
parent of the root is nothing and the parent of /a is the root. -/
theorem parent_spec :
    (∀ p : Bytes, ValidPath p →
      parent p = (match rposition 47 (stripSlashes p) with
        | none => none
        | some i => if i = 0 then some [47] else some ((stripSlashes p).take i))
      ∧ (parent p = none ↔ rposition 47 (stripSlashes p) = none))
    ∧ parent [47] = none
    ∧ parent [47, 97] = some [47] := by
  refine ⟨fun p _ => ⟨parent_eq p, ?_⟩, by decide, by decide⟩
  rw [parent_eq p]
  cases hr : rposition 47 (stripSlashes p) with
  | none => simp
  | some i =>
    by_cases h0 : i = 0 <;> simp [h0]

/-- Witness for C5 at a concrete input: the parent of the path /a/b is /a. -/
theorem parent_spec_witness : parent [47, 97, 47, 98] = some [47, 97] := by
  have h := (parent_spec.1 [47, 97, 47, 98] (by decide)).1
  exact h.trans (by decide)

/-! Lemmas about the `Ancestors` iterator. -/

theorem tState_length_lt (s : Bytes) (hs : s ≠ []) (hs47 : s ≠ [47]) (i : Nat)
    (hilt : i < s.length) :
    (if s.head? = some 47 ∧ s.take i = [] then [47] else s.take i).length < s.length := by
  by_cases hcond : s.head? = some 47 ∧ s.take i = []
  · rw [if_pos hcond]
    have hpos : 0 < s.length := List.length_pos_of_ne_nil hs
    have hne1 : s.length ≠ 1 := by
      intro h1
      obtain ⟨a, ha⟩ := List.length_eq_one.mp h1
      subst ha
      obtain ⟨h47, _⟩ := hcond
      simp only [List.head?_cons, Option.some.injEq] at h47
      exact hs47 (by rw [h47])
    simp only [List.length_singleton]
    omega
  · rw [if_neg hcond]
    simp only [List.length_take]
    omega

theorem ancNextAux_congr : ∀ (f g : Nat) (s : Bytes), s.length ≤ f → s.length ≤ g →
    ancestorsNextAux f s = ancestorsNextAux g s
  | 0, g, s => by
    intro hf _
    have hnil : s = [] := List.eq_nil_of_length_eq_zero (Nat.le_zero.mp hf)
    subst hnil
    cases g <;> simp [ancestorsNextAux]
  | f + 1, 0, s => by
    intro _ hg
    have hnil : s = [] := List.eq_nil_of_length_eq_zero (Nat.le_zero.mp hg)
    subst hnil
    simp [ancestorsNextAux]
  | f + 1, g + 1, s => by
    intro hf hg
    by_cases hs : s = []
    · subst hs
      simp [ancestorsNextAux]
    · by_cases hs47 : s = [47]
      · subst hs47
        rfl
      · simp only [ancestorsNextAux]
        rw [if_neg hs, if_neg hs47, if_neg hs, if_neg hs47]
        cases hr : rposition 47 s with
        | none =>
          have hsp : rsplitOnce 47 s = none := by rw [rsplitOnce, hr]
          simp only [hsp]
        | some i =>
          have hsp : rsplitOnce 47 s = some (s.take i, s.drop (i + 1)) := by
            rw [rsplitOnce, hr]
          simp only [hsp]
          have hilt := rposition_lt 47 s i hr
          have hlt := tState_length_lt s hs hs47 i hilt
          by_cases hname : s.drop (i + 1) = []
          · rw [if_pos hname, if_pos hname]
            rw [ancNextAux_congr f g (if s.head? = some 47 ∧ s.take i = [] then [47] else s.take i)
              (by omega) (by omega)]
          · rw [if_neg hname, if_neg hname]

theorem ancestorsNext_rpos_none (s : Bytes) (hs : s ≠ []) (hs47 : s ≠ [47])
    (hr : rposition 47 s = none) : ancestorsNext s = some (s, []) := by
  obtain ⟨k, hk⟩ : ∃ k, s.length = k + 1 := by
    cases s with
    | nil => exact absurd rfl hs
    | cons b bs => exact ⟨bs.length, rfl⟩
  show ancestorsNextAux s.length s = _
  rw [hk]
  simp only [ancestorsNextAux]
  rw [if_neg hs, if_neg hs47]
  have hsp : rsplitOnce 47 s = none := by rw [rsplitOnce, hr]
  simp only [hsp]

theorem ancestorsNext_eq (s : Bytes) (hs : s ≠ []) (hs47 : s ≠ [47]) (i : Nat)
    (hr : rposition 47 s = some i) :
    ancestorsNext s =
      (if s.drop (i + 1) = [] then
        match ancestorsNext (if s.head? = some 47 ∧ s.take i = [] then [47] else s.take i) with
        | none => some (s, if s.head? = some 47 ∧ s.take i = [] then [47] else s.take i)
        | some (_, u) => some (s, u)
      else some (s, if s.head? = some 47 ∧ s.take i = [] then [47] else s.take i)) := by
  obtain ⟨k, hk⟩ : ∃ k, s.length = k + 1 := by
    cases s with
    | nil => exact absurd rfl hs
    | cons b bs => exact ⟨bs.length, rfl⟩
  show ancestorsNextAux s.length s = _
  rw [hk]
  simp only [ancestorsNextAux]
  rw [if_neg hs, if_neg hs47]
  have hsp : rsplitOnce 47 s = some (s.take i, s.drop (i + 1)) := by
    rw [rsplitOnce, hr]
  simp only [hsp]
  have hilt := rposition_lt 47 s i hr
  have hlt := tState_length_lt s hs hs47 i hilt
  by_cases hname : s.drop (i + 1) = []
  · rw [if_pos hname, if_pos hname]
    rw [ancNextAux_congr k
      (if s.head? = some 47 ∧ s.take i = [] then [47] else s.take i).length
      (if s.head? = some 47 ∧ s.take i = [] then [47] else s.take i)
      (by omega) (le_refl _)]
    rfl
  · rw [if_neg hname, if_neg hname]

theorem ancestorsNext_isSome (s : Bytes) (hs : s ≠ []) :
    ∃ p, ancestorsNext s = some p := by
  by_cases hs47 : s = [47]
  · subst hs47
    exact ⟨([47], []), rfl⟩
  · cases hr : rposition 47 s with
    | none => exact ⟨(s, []), ancestorsNext_rpos_none s hs hs47 hr⟩
    | some i =>
      rw [ancestorsNext_eq s hs hs47 i hr]
      by_cases hname : s.drop (i + 1) = []
      · rw [if_pos hname]
        cases hin : ancestorsNext
            (if s.head? = some 47 ∧ s.take i = [] then [47] else s.take i) with
        | none => exact ⟨(s, _), rfl⟩
        | some q =>
          obtain ⟨q1, q2⟩ := q
          exact ⟨(s, q2), rfl⟩
      · rw [if_neg hname]
        exact ⟨(s, _), rfl⟩

theorem parent_rpos_none (s : Bytes) (hr : rposition 47 s = none) : parent s = none := by
  cases s with
  | nil => rfl
  | cons b bs =>
    show parentAux (bs.length + 1) (b :: bs) = none
    simp only [parentAux, hr]

theorem ancestorsNext_parent : ∀ (n : Nat) (s : Bytes), s.length ≤ n → ∀ (item t : Bytes),
    ancestorsNext s = some (item, t) →
    item = s ∧ parent s = (if t = [] then none else some t)
  | 0, s => by
    intro hn item t h
    have hnil : s = [] := List.eq_nil_of_length_eq_zero (Nat.le_zero.mp hn)
    subst hnil
    simp [ancestorsNext, ancestorsNextAux] at h
  | n + 1, s => by
    intro hn item t h
    by_cases hs : s = []
    · subst hs
      simp [ancestorsNext, ancestorsNextAux] at h
    by_cases hs47 : s = [47]
    · subst hs47
      have hnx : ancestorsNext [47] = some ([47], []) := rfl
      rw [hnx] at h
      injection h with h'
      injection h' with hitem ht
      subst hitem
      subst ht
      exact ⟨rfl, by decide⟩
    cases hr : rposition 47 s with
    | none =>
      rw [ancestorsNext_rpos_none s hs hs47 hr] at h
      injection h with h'
      injection h' with hitem ht
      subst hitem
      subst ht
      refine ⟨rfl, ?_⟩
      rw [if_pos rfl]
      exact parent_rpos_none s hr
    | some i =>
      have hilt := rposition_lt 47 s i hr
      rw [ancestorsNext_eq s hs hs47 i hr] at h
      by_cases hname : s.drop (i + 1) = []
      · rw [if_pos hname] at h
        have hi1 : i + 1 = s.length := by
          by_contra hne
          have hld := List.length_drop (i + 1) s
          rw [hname] at hld
          simp at hld
          omega
        have hcond_false : ¬ (s.head? = some 47 ∧ s.take i = []) := by
          intro hcond
          have hi0 : i = 0 := by
            rcases List.take_eq_nil_iff.mp hcond.2 with h0 | h0
            · exact h0
            · exact absurd h0 hs
          subst hi0
          have hlen1 : s.length = 1 := by omega
          obtain ⟨a, ha⟩ := List.length_eq_one.mp hlen1
          subst ha
          obtain ⟨h47, _⟩ := hcond
          simp only [List.head?_cons, Option.some.injEq] at h47
          exact hs47 (by rw [h47])
        rw [if_neg hcond_false] at h
        have hgl : s.getLast? = some 47 := getLast_of_rposition_last 47 hr hi1
        obtain ⟨t', ht'⟩ := exists_concat_of_getLast hgl
        have hdl : s.dropLast = t' := by rw [ht', List.dropLast_concat]
        have hty : s.take i = s.dropLast := by
          rw [List.dropLast_eq_take]
          congr 1
          omega
        have hparent : parent s = parent (s.take i) := by
          conv_lhs => rw [ht']
          rw [parent_concat_slash, hty, hdl]
        have htake_ne : s.take i ≠ [] := by
          intro h0
          rcases List.take_eq_nil_iff.mp h0 with h0 | h0
          · subst h0
            have hlen1 : s.length = 1 := by omega
            obtain ⟨a, ha⟩ := List.length_eq_one.mp hlen1
            subst ha
            have hg := rposition_getD 47 [a] 0 hr
            simp only [List.getD_cons_zero] at hg
            exact hs47 (by rw [hg])
          · exact hs h0
        obtain ⟨⟨item2, u⟩, hin⟩ := ancestorsNext_isSome (s.take i) htake_ne
        simp only [hin] at h
        injection h with h'
        injection h' with hitem ht
        subst hitem
        subst ht
        have ih := ancestorsNext_parent n (s.take i)
          (by simp only [List.length_take]; omega) item2 u hin
        exact ⟨rfl, hparent.trans ih.2⟩
      · rw [if_neg hname] at h
        injection h with h'
        injection h' with hitem ht
        subst hitem
        subst ht
        refine ⟨rfl, ?_⟩
        have hlast : s.getLast? ≠ some 47 := by
          intro hl
          have hrl := rposition_of_getLast 47 s hl
          rw [hr] at hrl
          injection hrl with hrl
          apply hname
          apply List.drop_eq_nil_of_le
          omega
        have hp := parent_of_no_trailing s hlast
        simp only [hr] at hp
        by_cases hcond : s.head? = some 47 ∧ s.take i = []
        · rw [if_pos hcond]
          have hi0 : i = 0 := by
            rcases List.take_eq_nil_iff.mp hcond.2 with h0 | h0
            · exact h0
            · exact absurd h0 hs
          rw [if_pos hi0] at hp
          rw [if_neg (by simp : ¬ ([47] : Bytes) = [])]
          exact hp
        · rw [if_neg hcond]
          have hi0 : i ≠ 0 := by
            intro h0
            subst h0
            apply hcond
            refine ⟨?_, by simp⟩
            have hg := rposition_getD 47 s 0 hr
            cases s with
            | nil => exact absurd rfl hs
            | cons b bs =>
              simp only [List.getD_cons_zero] at hg
              simp [hg]
          rw [if_neg hi0] at hp
          have htne : s.take i ≠ [] := by
            intro h0
            rcases List.take_eq_nil_iff.mp h0 with h0 | h0
            · exact hi0 h0
            · exact hs h0
          rw [if_neg htne]
          exact hp

theorem getD_take : ∀ (l : Bytes) (i j d : Nat), j < i → (l.take i).getD j d = l.getD j d
  | [], _, _, _ => by simp
  | b :: l, i, j, d => by
    intro h
    cases i with
    | zero => omega
    | succ i' =>
      rw [List.take_succ_cons]
      cases j with
      | zero => simp
      | succ j' =>
        simp only [List.getD_cons_succ]
        exact getD_take l i' j' d (by omega)

theorem getD_append_left : ∀ (l₁ l₂ : Bytes) (j d : Nat), j < l₁.length →
    (l₁ ++ l₂).getD j d = l₁.getD j d
  | [], _, _, _ => by simp
  | b :: l₁, l₂, j, d => by
    intro h
    cases j with
    | zero => simp
    | succ j' =>
      simp only [List.cons_append, List.getD_cons_succ]
      exact getD_append_left l₁ l₂ j' d (by simp at h; omega)

theorem getD_mem : ∀ (l : Bytes) (j : Nat), j < l.length → l.getD j 0 ∈ l
  | [], _ => by simp
  | b :: l, 0 => by simp
  | b :: l, j + 1 => by
    intro h
    simp only [List.getD_cons_succ]
    exact List.mem_cons_of_mem b (getD_mem l j (by simp at h; omega))

theorem strip_eq_nil_iff : ∀ s : Bytes, (stripSlashes s = [] ↔ ∀ b ∈ s, b = 47)
  | [] => by simp [stripSlashes]
  | b :: s => by
    have ih := strip_eq_nil_iff s
    by_cases h : stripSlashes s = [] ∧ b = 47
    · simp only [stripSlashes, if_pos h]
      simp only [List.mem_cons, true_iff]
      intro x hx
      rcases hx with hx | hx
      · rw [hx, h.2]
      · exact ih.mp h.1 x hx
    · simp only [stripSlashes, if_neg h]
      constructor
      · intro hc
        cases hc
      · intro hall
        exact absurd ⟨ih.mpr fun x hx => hall x (List.mem_cons_of_mem b hx),
          hall b (List.mem_cons_self b s)⟩ h

theorem strip_decomp : ∀ s : Bytes, ∃ r, s = stripSlashes s ++ List.replicate r 47
  | [] => ⟨0, rfl⟩
  | b :: s => by
    obtain ⟨r, hr⟩ := strip_decomp s
    by_cases h : stripSlashes s = [] ∧ b = 47
    · refine ⟨r + 1, ?_⟩
      simp only [stripSlashes, if_pos h, List.nil_append, List.replicate_succ]
      rw [h.2]
      congr 1
      rw [hr, h.1, List.nil_append]
    · refine ⟨r, ?_⟩
      simp only [stripSlashes, if_neg h, List.cons_append]
      rw [← hr]

theorem strip_length_le (s : Bytes) : (stripSlashes s).length ≤ s.length := by
  obtain ⟨r, hr⟩ := strip_decomp s
  conv_rhs => rw [hr]
  simp

theorem strip_getD (s : Bytes) (j : Nat) (h : j < (stripSlashes s).length) :
    (stripSlashes s).getD j 0 = s.getD j 0 := by
  obtain ⟨r, hr⟩ := strip_decomp s
  conv_rhs => rw [hr]
  rw [getD_append_left _ _ j 0 h]

theorem parent_some_lt (s t : Bytes) (h : parent s = some t) : t.length < s.length := by
  rw [parent_eq s] at h
  cases hr : rposition 47 (stripSlashes s) with
  | none =>
    simp only [hr] at h
    exact Option.noConfusion h
  | some i =>
    simp only [hr] at h
    have hilt := rposition_lt 47 (stripSlashes s) i hr
    have hqle := strip_length_le s
    by_cases hi : i = 0
    · rw [if_pos hi] at h
      injection h with h
      subst h
      have hqne : stripSlashes s ≠ [] := by
        intro hq
        rw [hq] at hr
        simp [rposition] at hr
      have hq2 : 2 ≤ (stripSlashes s).length := by
        by_contra hq1
        have hpos : 0 < (stripSlashes s).length := List.length_pos_of_ne_nil hqne
        have hlen1 : (stripSlashes s).length = 1 := by omega
        obtain ⟨a, ha⟩ := List.length_eq_one.mp hlen1
        have hg := rposition_getD 47 (stripSlashes s) i hr
        rcases strip_getLast_ne s with hnil | hlast
        · exact hqne hnil
        · apply hlast
          rw [ha] at hg ⊢
          subst hi
          simp only [List.getD_cons_zero] at hg
          rw [hg]
          rfl
      simp only [List.length_singleton]
      omega
    · rw [if_neg hi] at h
      injection h with h
      subst h
      simp only [List.length_take]
      omega

theorem parent_abs_step (s t : Bytes) (h : parent s = some t) (h0 : s.getD 0 0 = 47)
    (h1 : s.getD 1 0 ≠ 47) : t ≠ [] ∧ t.getD 0 0 = 47 ∧ t.getD 1 0 ≠ 47 := by
  rw [parent_eq s] at h
  cases hr : rposition 47 (stripSlashes s) with
  | none =>
    simp only [hr] at h
    exact Option.noConfusion h
  | some i =>
    simp only [hr] at h
    have hilt := rposition_lt 47 (stripSlashes s) i hr
    have hqne : stripSlashes s ≠ [] := by
      intro hq
      rw [hq] at hr
      simp [rposition] at hr
    have hq0 : (stripSlashes s).getD 0 0 = s.getD 0 0 :=
      strip_getD s 0 (List.length_pos_of_ne_nil hqne)
    by_cases hi : i = 0
    · rw [if_pos hi] at h
      injection h with h
      subst h
      exact ⟨by simp, rfl, by simp⟩
    · rw [if_neg hi] at h
      injection h with h
      subst h
      have hi2 : i ≠ 1 := by
        intro h1'
        subst h1'
        have hg := rposition_getD 47 (stripSlashes s) 1 hr
        rw [strip_getD s 1 (by omega)] at hg
        exact h1 hg
      refine ⟨?_, ?_, ?_⟩
      · intro hnil
        have := congrArg List.length hnil
        simp only [List.length_take, List.length_nil] at this
        omega
      · rw [getD_take _ i 0 0 (by omega), hq0]
        exact h0
      · rw [getD_take _ i 1 0 (by omega), strip_getD s 1 (by omega)]
        exact h1

theorem parent_none_abs (s : Bytes) (h : parent s = none) (hne : s ≠ [])
    (h0 : s.getD 0 0 = 47) (h1 : s.getD 1 0 ≠ 47) : s = [47] := by
  rw [parent_eq s] at h
  cases hr : rposition 47 (stripSlashes s) with
  | some i =>
    simp only [hr] at h
    by_cases hi : i = 0 <;> simp [hi] at h
  | none =>
    have hall := (rposition_eq_none 47 (stripSlashes s)).mp hr
    have hqnil : stripSlashes s = [] := by
      by_contra hqne
      have hlen : 0 < (stripSlashes s).length := List.length_pos_of_ne_nil hqne
      have hq0 := strip_getD s 0 hlen
      rw [h0] at hq0
      exact hall _ (getD_mem _ 0 hlen) hq0
    have hall47 := (strip_eq_nil_iff s).mp hqnil
    have hpos : 0 < s.length := List.length_pos_of_ne_nil hne
    have hlen1 : s.length = 1 := by
      by_contra hl
      have h2 : 1 < s.length := by omega
      exact h1 (hall47 (s.getD 1 0) (getD_mem s 1 h2))
    obtain ⟨a, ha⟩ := List.length_eq_one.mp hlen1
    subst ha
    rw [hall47 a (by simp)]

theorem parent_rel_step (s t : Bytes) (h : parent s = some t) (h0 : s.getD 0 0 ≠ 47) :
    t ≠ [] ∧ t.getD 0 0 ≠ 47 := by
  rw [parent_eq s] at h
  cases hr : rposition 47 (stripSlashes s) with
  | none =>
    simp only [hr] at h
    exact Option.noConfusion h
  | some i =>
    simp only [hr] at h
    have hilt := rposition_lt 47 (stripSlashes s) i hr
    have hqne : stripSlashes s ≠ [] := by
      intro hq
      rw [hq] at hr
      simp [rposition] at hr
    have hq0 : (stripSlashes s).getD 0 0 = s.getD 0 0 :=
      strip_getD s 0 (List.length_pos_of_ne_nil hqne)
    by_cases hi : i = 0
    · exfalso
      subst hi
      have hg := rposition_getD 47 (stripSlashes s) 0 hr
      rw [hq0] at hg
      exact h0 hg
    · rw [if_neg hi] at h
      injection h with h
      subst h
      constructor
      · intro hnil
        have := congrArg List.length hnil
        simp only [List.length_take, List.length_nil] at this
        omega
      · rw [getD_take _ i 0 0 (by omega), hq0]
        exact h0

theorem ancestorsNext_lt (s item t : Bytes) (h : ancestorsNext s = some (item, t)) :
    t.length < s.length := by
  have hs : s ≠ [] := by
    intro hnil
    subst hnil
    simp [ancestorsNext, ancestorsNextAux] at h
  have hL := ancestorsNext_parent s.length s (le_refl _) item t h
  by_cases ht : t = []
  · subst ht
    simpa using List.length_pos_of_ne_nil hs
  · have hp := hL.2
    rw [if_neg ht] at hp
    exact parent_some_lt s t hp

theorem ancListAux_congr : ∀ (f g : Nat) (s : Bytes), s.length ≤ f → s.length ≤ g →
    ancestorsListAux f s = ancestorsListAux g s
  | 0, g, s => by
    intro hf _
    have hnil : s = [] := List.eq_nil_of_length_eq_zero (Nat.le_zero.mp hf)
    subst hnil
    cases g <;> simp [ancestorsListAux, ancestorsNext, ancestorsNextAux]
  | f + 1, 0, s => by
    intro _ hg
    have hnil : s = [] := List.eq_nil_of_length_eq_zero (Nat.le_zero.mp hg)
    subst hnil
    simp [ancestorsListAux, ancestorsNext, ancestorsNextAux]
  | f + 1, g + 1, s => by
    intro hf hg
    simp only [ancestorsListAux]
    cases hnx : ancestorsNext s with
    | none => rfl
    | some p =>
      obtain ⟨item, t⟩ := p
      show item :: ancestorsListAux f t = item :: ancestorsListAux g t
      have hlt := ancestorsNext_lt s item t hnx
      rw [ancListAux_congr f g t (by omega) (by omega)]

theorem ancestorsList_cons (s : Bytes) (hs : s ≠ []) :
    ∃ t, ancestorsNext s = some (s, t) ∧ ancestorsList s = s :: ancestorsList t
      ∧ parent s = (if t = [] then none else some t) := by
  obtain ⟨⟨item, t⟩, hnx⟩ := ancestorsNext_isSome s hs
  obtain ⟨hitem, hpar⟩ := ancestorsNext_parent s.length s (le_refl _) item t hnx
  rw [hitem] at hnx
  refine ⟨t, hnx, ?_, hpar⟩
  obtain ⟨k, hk⟩ : ∃ k, s.length = k + 1 := by
    cases s with
    | nil => exact absurd rfl hs
    | cons b bs => exact ⟨bs.length, rfl⟩
  show ancestorsListAux s.length s = _
  rw [hk]
  simp only [ancestorsListAux, hnx]
  have hlt := ancestorsNext_lt s s t hnx
  rw [ancListAux_congr k t.length t (by omega) (le_refl _)]
  rfl

theorem ancestors_chain : ∀ (n : Nat) (s : Bytes), s.length ≤ n →
    List.Chain' (fun x y => parent x = some y) (ancestorsList s)
  | 0, s => fun hn => by
    have hnil : s = [] := List.eq_nil_of_length_eq_zero (Nat.le_zero.mp hn)
    subst hnil
    exact List.chain'_nil
  | n + 1, s => fun hn => by
    by_cases hs : s = []
    · subst hs
      exact List.chain'_nil
    · obtain ⟨t, hnx, hcons, hpar⟩ := ancestorsList_cons s hs
      rw [hcons]
      by_cases ht : t = []
      · subst ht
        exact List.chain'_singleton s
      · obtain ⟨u, hnxt, hconst, hpart⟩ := ancestorsList_cons t ht
        rw [hconst, List.chain'_cons]
        constructor
        · rw [if_neg ht] at hpar
          exact hpar
        · rw [← hconst]
          exact ancestors_chain n t (by have := ancestorsNext_lt s s t hnx; omega)

theorem ancestors_last_parent : ∀ (n : Nat) (s : Bytes), s.length ≤ n →
    ∀ l, (ancestorsList s).getLast? = some l → parent l = none
  | 0, s => fun hn l hl => by
    have hnil : s = [] := List.eq_nil_of_length_eq_zero (Nat.le_zero.mp hn)
    subst hnil
    simp [ancestorsList, ancestorsListAux] at hl
  | n + 1, s => fun hn l hl => by
    by_cases hs : s = []
    · subst hs
      simp [ancestorsList, ancestorsListAux] at hl
    · obtain ⟨t, hnx, hcons, hpar⟩ := ancestorsList_cons s hs
      rw [hcons] at hl
      by_cases ht : t = []
      · subst ht
        have hred : ancestorsList ([] : Bytes) = [] := rfl
        rw [hred] at hl
        simp only [List.getLast?_singleton, Option.some.injEq] at hl
        subst hl
        rw [if_pos rfl] at hpar
        exact hpar
      · obtain ⟨u, hnxt, hconst, hpart⟩ := ancestorsList_cons t ht
        rw [hconst, List.getLast?_cons_cons, ← hconst] at hl
        exact ancestors_last_parent n t
          (by have := ancestorsNext_lt s s t hnx; omega) l hl

theorem ancestors_abs_last : ∀ (n : Nat) (s : Bytes), s.length ≤ n → s ≠ [] →
    s.getD 0 0 = 47 → s.getD 1 0 ≠ 47 → (ancestorsList s).getLast? = some [47]
  | 0, s => fun hn hs _ _ =>
    absurd (List.eq_nil_of_length_eq_zero (Nat.le_zero.mp hn)) hs
  | n + 1, s => fun hn hs h0 h1 => by
    obtain ⟨t, hnx, hcons, hpar⟩ := ancestorsList_cons s hs
    rw [hcons]
    by_cases ht : t = []
    · subst ht
      rw [if_pos rfl] at hpar
      have hs47 : s = [47] := parent_none_abs s hpar hs h0 h1
      subst hs47
      rfl
    · rw [if_neg ht] at hpar
      have habs := parent_abs_step s t hpar h0 h1
      obtain ⟨u, hnxt, hconst, _⟩ := ancestorsList_cons t ht
      rw [hconst, List.getLast?_cons_cons, ← hconst]
      exact ancestors_abs_last n t
        (by have := ancestorsNext_lt s s t hnx; omega) ht habs.2.1 habs.2.2

theorem ancestors_rel_no_root : ∀ (n : Nat) (s : Bytes), s.length ≤ n →
    s.getD 0 0 ≠ 47 → [47] ∉ ancestorsList s
  | 0, s => fun hn _ => by
    have hnil : s = [] := List.eq_nil_of_length_eq_zero (Nat.le_zero.mp hn)
    subst hnil
    intro hmem
    simp [ancestorsList, ancestorsListAux] at hmem
  | n + 1, s => fun hn h0 => by
    by_cases hs : s = []
    · subst hs
      intro hmem
      simp [ancestorsList, ancestorsListAux] at hmem
    · obtain ⟨t, hnx, hcons, hpar⟩ := ancestorsList_cons s hs
      rw [hcons]
      intro hmem
      rcases List.mem_cons.mp hmem with hmem | hmem
      · rw [← hmem] at h0
        simp at h0
      · by_cases ht : t = []
        · subst ht
          simp [ancestorsList, ancestorsListAux] at hmem
        · rw [if_neg ht] at hpar
          have hrel := parent_rel_step s t hpar h0
          exact ancestors_rel_no_root n t
            (by have := ancestorsNext_lt s s t hnx; omega) hrel.2 hmem

theorem ancestors_head (s : Bytes) (hs : s ≠ []) : (ancestorsList s).head? = some s := by
  obtain ⟨t, hnx, hcons, _⟩ := ancestorsList_cons s hs
  rw [hcons]
  rfl

/-- C8 counterexample: the valid, non-empty, absolute path with content two
slashes yields only itself: its ancestors list is a single element which is
not the root, and the root is never yielded, because the skip of the empty
final segment consumes (and discards) the root ancestor. -/
theorem ancestors_spec_cex :
    ValidPath [47, 47] ∧ ([47, 47] : Bytes) ≠ [] ∧ ([47, 47] : Bytes).getD 0 0 = 47
      ∧ ancestorsList [47, 47] = [[47, 47]]
      ∧ (ancestorsList [47, 47]).getLast? = some [47, 47]
      ∧ [47] ∉ ancestorsList [47, 47] := by decide

/-- C8 amended: the empty path yields nothing and the root path yields the
root once; for every non-empty valid path `p`, the iterator yields `p`
itself first, each subsequent yielded element equals `parent` of the
previously yielded element, and `parent` of the final yielded element is
none; when `p` is absolute and does not begin with a double slash the final
element is the root (for a path beginning with two slashes the skip of an
empty segment can consume the root ancestor, as for the path of two
slashes, which yields only itself); when `p` is relative no element is the
root. -/
theorem ancestors_spec :
    ancestorsList [] = []
    ∧ ancestorsList [47] = [[47]]
    ∧ (∀ p : Bytes, ValidPath p → p ≠ [] →
        (ancestorsList p).head? = some p
        ∧ List.Chain' (fun x y => parent x = some y) (ancestorsList p)
        ∧ (∀ l, (ancestorsList p).getLast? = some l → parent l = none)
        ∧ (p.getD 0 0 = 47 → p.getD 1 0 ≠ 47 → (ancestorsList p).getLast? = some [47])
        ∧ (p.getD 0 0 ≠ 47 → [47] ∉ ancestorsList p)) := by
  refine ⟨rfl, by decide, fun p _ hp => ⟨ancestors_head p hp,
    ancestors_chain p.length p (le_refl _),
    fun l hl => ancestors_last_parent p.length p (le_refl _) l hl,
    fun h0 h1 => ancestors_abs_last p.length p (le_refl _) hp h0 h1,
    fun h0 => ancestors_rel_no_root p.length p (le_refl _) h0⟩⟩

/-- Witness for C8 at a concrete input: the ancestors of the absolute path
/a start at the path itself and end at the root. -/
theorem ancestors_spec_witness :
    (ancestorsList [47, 97]).head? = some [47, 97]
      ∧ (ancestorsList [47, 97]).getLast? = some [47] := by
  have h := ancestors_spec.2.2 [47, 97] (by decide) (by decide)
  exact ⟨h.1, h.2.2.2.1 (by decide) (by decide)⟩

/-! Lemmas about `PathBuf`. -/

theorem inv_parts {pb : PathBuf} (h : PathBufInv pb) :
    pb.buf.length = PATH_MAX_PLUS_ONE ∧ 1 ≤ pb.len ∧ pb.len ≤ PATH_MAX_PLUS_ONE
      ∧ pb.buf.getD (pb.len - 1) 0 = 0 ∧ pb.deref.all validByte = true := by
  have h2 := h
  simp only [PathBufInv, invB, Bool.and_eq_true, decide_eq_true_eq] at h2
  tauto

theorem inv_of_parts {pb : PathBuf} (h1 : pb.buf.length = PATH_MAX_PLUS_ONE)
    (h2 : 1 ≤ pb.len) (h3 : pb.len ≤ PATH_MAX_PLUS_ONE)
    (h4 : pb.buf.getD (pb.len - 1) 0 = 0) (h5 : pb.deref.all validByte = true) :
    PathBufInv pb := by
  show invB pb = true
  simp only [invB, Bool.and_eq_true, decide_eq_true_eq]
  exact ⟨⟨⟨⟨h1, h2⟩, h3⟩, h4⟩, h5⟩

theorem deref_length {pb : PathBuf} (h : PathBufInv pb) : pb.deref.length = pb.len - 1 := by
  obtain ⟨hb, h1, h2, _, _⟩ := inv_parts h
  simp only [PathBuf.deref, List.length_take]
  omega

theorem getD_append_length : ∀ (x y : Bytes) (d : Nat), (x ++ y).getD x.length d = y.getD 0 d
  | [], y, d => rfl
  | a :: x, y, d => by
    simp only [List.cons_append, List.length_cons, List.getD_cons_succ]
    exact getD_append_length x y d

theorem all_validByte_of {w : Bytes} (h0 : noNul w = true) (h1 : isAscii w = true) :
    w.all validByte = true := by
  simp only [noNul, List.all_eq_true, decide_eq_true_eq] at h0
  simp only [isAscii, List.all_eq_true, decide_eq_true_eq] at h1
  simp only [List.all_eq_true]
  intro b hb
  simp [validByte, h0 b hb, h1 b hb]

theorem validPath_all {p : Bytes} (h : ValidPath p) :
    p.all validByte = true ∧ p.length ≤ PATH_MAX := by
  have h2 : isValidPath p = true := h
  simp only [isValidPath, Bool.and_eq_true, decide_eq_true_eq] at h2
  exact h2

theorem push_nil (pb : PathBuf) : pb.push [] = some pb := rfl

theorem push_root (pb : PathBuf) :
    pb.push [47] = some ⟨(pb.buf.set 0 47).set 1 0, 2⟩ := by
  rw [PathBuf.push, if_neg (by simp), if_pos rfl]

theorem push_append_some (pb : PathBuf) (p : Bytes) (hp : p ≠ []) (hp47 : p ≠ [47])
    (hcap : pb.len + p.length + (if sepNeeded pb then 1 else 0) ≤ PATH_MAX_PLUS_ONE) :
    pb.push p = some ⟨pb.buf.take (pb.len - 1) ++ (if sepNeeded pb then [47] else []) ++ p
        ++ [0] ++ pb.buf.drop (pb.len + (if sepNeeded pb then 1 else 0) + p.length),
      pb.len + (if sepNeeded pb then 1 else 0) + p.length⟩ := by
  simp only [PathBuf.push]
  rw [if_neg hp, if_neg hp47, if_pos hcap]

theorem push_append_none (pb : PathBuf) (p : Bytes) (hp : p ≠ []) (hp47 : p ≠ [47])
    (hcap : ¬ pb.len + p.length + (if sepNeeded pb then 1 else 0) ≤ PATH_MAX_PLUS_ONE) :
    pb.push p = none := by
  simp only [PathBuf.push]
  rw [if_neg hp, if_neg hp47, if_neg hcap]

theorem push_append_parts (pb : PathBuf) (p : Bytes) (h : PathBufInv pb) (hp : p ≠ [])
    (hp47 : p ≠ [47])
    (hcap : pb.len + p.length + (if sepNeeded pb then 1 else 0) ≤ PATH_MAX_PLUS_ONE) :
    ∀ pb2, pb.push p = some pb2 →
      pb2.deref = pb.deref ++ (if sepNeeded pb then [47] else []) ++ p
        ∧ pb2.len = pb.len + (if sepNeeded pb then 1 else 0) + p.length
        ∧ pb2.buf = pb.deref ++ (if sepNeeded pb then [47] else []) ++ p ++ [0]
            ++ pb.buf.drop (pb.len + (if sepNeeded pb then 1 else 0) + p.length) := by
  intro pb2 hpush
  rw [push_append_some pb p hp hp47 hcap] at hpush
  injection hpush with hpush
  subst hpush
  obtain ⟨hb, h1, h2, _, _⟩ := inv_parts h
  have hA : pb.buf.take (pb.len - 1) = pb.deref := rfl
  have hAlen : pb.deref.length = pb.len - 1 := deref_length h
  refine ⟨?_, rfl, by rw [hA]⟩
  show (pb.deref ++ (if sepNeeded pb then [47] else []) ++ p ++ [0]
      ++ pb.buf.drop (pb.len + (if sepNeeded pb then 1 else 0) + p.length)).take
      (pb.len + (if sepNeeded pb then 1 else 0) + p.length - 1) = _
  have hXlen : (pb.deref ++ (if sepNeeded pb then [47] else []) ++ p).length
      = pb.len + (if sepNeeded pb then 1 else 0) + p.length - 1 := by
    simp only [List.length_append, hAlen]
    by_cases hsep : sepNeeded pb <;> simp [hsep] <;> omega
  rw [List.append_assoc (pb.deref ++ (if sepNeeded pb then [47] else []) ++ p)]
  rw [← hXlen, List.take_left]

theorem push_append_inv (pb : PathBuf) (p : Bytes) (h : PathBufInv pb) (hv : ValidPath p)
    (hp : p ≠ []) (hp47 : p ≠ [47])
    (hcap : pb.len + p.length + (if sepNeeded pb then 1 else 0) ≤ PATH_MAX_PLUS_ONE) :
    ∀ pb2, pb.push p = some pb2 → PathBufInv pb2 := by
  intro pb2 hpush
  obtain ⟨hderef, hlen, hbuf⟩ := push_append_parts pb p h hp hp47 hcap pb2 hpush
  obtain ⟨hb, h1, h2, _, hval⟩ := inv_parts h
  have hAlen : pb.deref.length = pb.len - 1 := deref_length h
  have hXlen : (pb.deref ++ (if sepNeeded pb then [47] else []) ++ p).length
      = pb.len + (if sepNeeded pb then 1 else 0) + p.length - 1 := by
    simp only [List.length_append, hAlen]
    by_cases hsep : sepNeeded pb <;> simp [hsep] <;> omega
  obtain ⟨hpall, hplen⟩ := validPath_all hv
  have hb' : pb.buf.length = 256 := by rw [hb]; rfl
  have hcap' : pb.len + p.length + (if sepNeeded pb then 1 else 0) ≤ 256 := hcap
  apply inv_of_parts
  · rw [hbuf]
    show _ = 256
    simp only [List.length_append, List.length_drop, hAlen, hb']
    by_cases hsep : sepNeeded pb
    all_goals simp [hsep] at hcap' ⊢
    all_goals omega
  · rw [hlen]
    omega
  · rw [hlen]
    show _ ≤ 256
    by_cases hsep : sepNeeded pb <;> simp [hsep] at hcap' ⊢ <;> omega
  · rw [hbuf, hlen]
    rw [List.append_assoc (pb.deref ++ (if sepNeeded pb then [47] else []) ++ p)]
    rw [← hXlen, getD_append_length]
    rfl
  · rw [hderef]
    simp only [List.all_append, Bool.and_eq_true]
    refine ⟨⟨hval, ?_⟩, hpall⟩
    by_cases hsep : sepNeeded pb <;> simp [hsep, validByte]

theorem fromPath_parts (p : Bytes) (hlen : p.length ≤ PATH_MAX) :
    ∃ pb, fromPath p = some pb ∧ pb.deref = p ∧ pb.len = p.length + 1
      ∧ pb.buf = p ++ [0] ++ List.replicate (PATH_MAX_PLUS_ONE - (p.length + 1)) 0 := by
  refine ⟨_, by rw [fromPath, if_pos hlen], ?_, rfl, rfl⟩
  show (p ++ [0] ++ List.replicate (PATH_MAX_PLUS_ONE - (p.length + 1)) 0).take
    (p.length + 1 - 1) = p
  rw [List.append_assoc]
  have : p.length + 1 - 1 = p.length := by omega
  rw [this, List.take_left]

theorem fromPath_inv (p : Bytes) (hv : ValidPath p) :
    ∃ pb, fromPath p = some pb ∧ PathBufInv pb ∧ pb.deref = p := by
  obtain ⟨hpall, hplen⟩ := validPath_all hv
  obtain ⟨pb, hfp, hderef, hlen, hbuf⟩ := fromPath_parts p hplen
  refine ⟨pb, hfp, ?_, hderef⟩
  have hplen' : p.length ≤ 255 := hplen
  apply inv_of_parts
  · rw [hbuf]
    show _ = 256
    simp only [List.length_append, List.length_replicate, List.length_cons,
      List.length_nil]
    show p.length + 1 + (256 - (p.length + 1)) = 256
    omega
  · rw [hlen]
    omega
  · rw [hlen]
    show p.length + 1 ≤ 256
    omega
  · rw [hbuf, hlen, List.append_assoc]
    have : p.length + 1 - 1 = p.length := by omega
    rw [this, getD_append_length]
    rfl
  · rw [hderef]
    exact hpall

theorem fromBytes_no_strip (v : Bytes) (hnul : v.getLast? ≠ some 0) :
    fromBytes v = (if noNul v = true ∧ v.length ≤ PATH_MAX ∧ isAscii v = true then
      some ⟨v ++ List.replicate (PATH_MAX_PLUS_ONE - v.length) 0, v.length + 1⟩
    else none) := by
  have hcond : ¬ (v ≠ [] ∧ v.getLast? = some 0) := fun hc => hnul hc.2
  simp only [fromBytes, if_neg hcond]

theorem fromBytes_inv (v : Bytes) : ∀ pb, fromBytes v = some pb → PathBufInv pb := by
  intro pb h
  simp only [fromBytes] at h
  set w := if v ≠ [] ∧ v.getLast? = some 0 then v.dropLast else v with hw
  by_cases hg : noNul w = true ∧ w.length ≤ PATH_MAX ∧ isAscii w = true
  · rw [if_pos hg] at h
    injection h with h
    subst h
    obtain ⟨hg1, hg2, hg3⟩ := hg
    apply inv_of_parts
    · simp only [List.length_append, List.length_replicate]
      show w.length + (PATH_MAX_PLUS_ONE - w.length) = PATH_MAX_PLUS_ONE
      unfold PATH_MAX_PLUS_ONE
      omega
    · show 1 ≤ w.length + 1
      omega
    · show w.length + 1 ≤ PATH_MAX_PLUS_ONE
      unfold PATH_MAX_PLUS_ONE
      omega
    · show (w ++ List.replicate (PATH_MAX_PLUS_ONE - w.length) 0).getD (w.length + 1 - 1) 0 = 0
      have : w.length + 1 - 1 = w.length := by omega
      rw [this, getD_append_length]
      have hrep : PATH_MAX_PLUS_ONE - w.length = (PATH_MAX_PLUS_ONE - w.length - 1) + 1 := by
        unfold PATH_MAX_PLUS_ONE
        omega
      rw [hrep, List.replicate_succ]
      rfl
    · show ((w ++ List.replicate (PATH_MAX_PLUS_ONE - w.length) 0).take
        (w.length + 1 - 1)).all validByte = true
      have : w.length + 1 - 1 = w.length := by omega
      rw [this, List.take_left]
      exact all_validByte_of hg1 hg3
  · rw [if_neg hg] at h
    exact Option.noConfusion h

theorem fromBytes_of_valid (v : Bytes) (hval : v.all validByte = true)
    (hlen : v.length ≤ PATH_MAX) :
    ∃ pb, fromBytes v = some pb ∧ pb.deref = v ∧ PathBufInv pb := by
  have hn0 : noNul v = true := by
    simp only [noNul, List.all_eq_true]
    intro b hb
    have := (List.all_eq_true.mp hval) b hb
    simp only [validByte, Bool.and_eq_true, decide_eq_true_eq] at this
    simp [this.2]
  have hasc : isAscii v = true := by
    simp only [isAscii, List.all_eq_true]
    intro b hb
    have := (List.all_eq_true.mp hval) b hb
    simp only [validByte, Bool.and_eq_true, decide_eq_true_eq] at this
    simp [this.1]
  have hnul : v.getLast? ≠ some 0 := by
    intro hl
    obtain ⟨t, ht⟩ := exists_concat_of_getLast hl
    have h0 : (0 : Nat) ∈ v := by
      rw [ht]
      simp
    have := (List.all_eq_true.mp hval) 0 h0
    simp [validByte] at this
  rw [fromBytes_no_strip v hnul, if_pos ⟨hn0, hlen, hasc⟩]
  refine ⟨_, rfl, ?_, ?_⟩
  · show (v ++ List.replicate (PATH_MAX_PLUS_ONE - v.length) 0).take (v.length + 1 - 1) = v
    have : v.length + 1 - 1 = v.length := by omega
    rw [this, List.take_left]
  · apply fromBytes_inv v
    rw [fromBytes_no_strip v hnul, if_pos ⟨hn0, hlen, hasc⟩]

theorem validPath_of_all {p : Bytes} (h1 : p.all validByte = true)
    (h2 : p.length ≤ PATH_MAX) : ValidPath p := by
  show isValidPath p = true
  simp only [isValidPath, Bool.and_eq_true]
  exact ⟨h1, decide_eq_true h2⟩

theorem push_root_parts (pb : PathBuf) (h : PathBufInv pb) :
    ∀ pb2, pb.push [47] = some pb2 → pb2.deref = [47] ∧ PathBufInv pb2 := by
  intro pb2 hp
  rw [push_root] at hp
  injection hp with hp
  subst hp
  obtain ⟨hb, h1, h2, _, _⟩ := inv_parts h
  have hb' : pb.buf.length = 256 := by rw [hb]; rfl
  obtain ⟨b0, r0, hb0⟩ : ∃ b0 r0, pb.buf = b0 :: r0 := by
    cases hbuf : pb.buf with
    | nil =>
      rw [hbuf] at hb'
      simp at hb'
    | cons x xs => exact ⟨x, xs, rfl⟩
  have hr0len : r0.length = 255 := by
    have hl := hb'
    rw [hb0] at hl
    simp at hl
    omega
  obtain ⟨b1, r1, hb1⟩ : ∃ b1 r1, r0 = b1 :: r1 := by
    cases hr0 : r0 with
    | nil =>
      rw [hr0] at hr0len
      simp at hr0len
    | cons x xs => exact ⟨x, xs, rfl⟩
  have hderef : (PathBuf.mk ((pb.buf.set 0 47).set 1 0) 2).deref = [47] := by
    show ((pb.buf.set 0 47).set 1 0).take (2 - 1) = [47]
    rw [hb0, hb1]
    simp [List.set]
  refine ⟨hderef, ?_⟩
  apply inv_of_parts
  · simp only [List.length_set]
    exact hb
  · show (1 : Nat) ≤ 2
    omega
  · show (2 : Nat) ≤ 256
    omega
  · show ((pb.buf.set 0 47).set 1 0).getD (2 - 1) 0 = 0
    rw [hb0, hb1]
    simp [List.set]
  · rw [hderef]
    decide

theorem sepNeeded_iff (pb : PathBuf) :
    sepNeeded pb = true ↔ pb.deref ≠ [] ∧ pb.deref.getLast? ≠ some 47 := by
  rw [sepNeeded]
  cases hg : pb.deref.getLast? with
  | none =>
    constructor
    · intro hc
      cases hc
    · intro hc
      exfalso
      have hne := hc.1
      have hsome := (List.getLast?_isSome (l := pb.deref)).mpr hne
      rw [hg] at hsome
      cases hsome
  | some b =>
    simp only [decide_eq_true_eq]
    constructor
    · intro hb
      constructor
      · intro hnil
        rw [hnil] at hg
        cases hg
      · intro hc
        injection hc with hc
        exact hb hc
    · intro hc hb47
      exact hc.2 (by rw [hb47])

theorem push_explicit (pb : PathBuf) (h : PathBufInv pb) (p : Bytes)
    (hp : p ≠ []) (hp47 : p ≠ [47]) :
    (pb.push p = none ↔
      PATH_MAX_PLUS_ONE < pb.deref.length
        + (if pb.deref ≠ [] ∧ pb.deref.getLast? ≠ some 47 then 1 else 0) + p.length + 1)
    ∧ (∀ pb2, pb.push p = some pb2 →
        pb2.deref = pb.deref
          ++ (if pb.deref ≠ [] ∧ pb.deref.getLast? ≠ some 47 then [47] else []) ++ p) := by
  have hlen := deref_length h
  obtain ⟨hb, h1, h2, _, _⟩ := inv_parts h
  have hsep_if : (if sepNeeded pb then 1 else 0)
      = (if pb.deref ≠ [] ∧ pb.deref.getLast? ≠ some 47 then 1 else 0) := by
    by_cases hs : sepNeeded pb
    · rw [if_pos hs, if_pos ((sepNeeded_iff pb).mp hs)]
    · rw [if_neg hs, if_neg (fun hc => hs ((sepNeeded_iff pb).mpr hc))]
  have hsep_list : (if sepNeeded pb then ([47] : Bytes) else [])
      = (if pb.deref ≠ [] ∧ pb.deref.getLast? ≠ some 47 then [47] else []) := by
    by_cases hs : sepNeeded pb
    · rw [if_pos hs, if_pos ((sepNeeded_iff pb).mp hs)]
    · rw [if_neg hs, if_neg (fun hc => hs ((sepNeeded_iff pb).mpr hc))]
  constructor
  · constructor
    · intro hnone
      by_contra hle
      have hle2 := Nat.not_lt.mp hle
      have hcap : pb.len + p.length + (if sepNeeded pb then 1 else 0)
          ≤ PATH_MAX_PLUS_ONE := by
        rw [hsep_if]
        omega
      rw [push_append_some pb p hp hp47 hcap] at hnone
      cases hnone
    · intro hgt
      apply push_append_none pb p hp hp47
      intro hle
      rw [hsep_if] at hle
      omega
  · intro pb2 hpush
    by_cases hcap : pb.len + p.length + (if sepNeeded pb then 1 else 0) ≤ PATH_MAX_PLUS_ONE
    · have hd := (push_append_parts pb p h hp hp47 hcap pb2 hpush).1
      rw [hd, hsep_list]
    · rw [push_append_none pb p hp hp47 hcap] at hpush
      cases hpush

set_option maxRecDepth 10000 in
/-- C6 counterexample: pushing the single-letter path with content byte 97
onto the empty buffer appends no separator, even though the empty buffer
does not end with a slash, so the claimed rule (separator unless the buffer
already ends in a slash) predicts the wrong result on this input. -/
theorem push_join_spec_cex :
    (PathBuf.new.push [97]).map PathBuf.deref = some [97]
      ∧ PathBuf.new.deref = [] ∧ PathBuf.new.deref.getLast? ≠ some 47
      ∧ ([97] : Bytes) ≠ [] ++ [47] ++ [97] := by decide

set_option maxRecDepth 10000 in
/-- C6 amended: for every invariant-satisfying path buffer and valid path
argument, `push` applies these rules in order: an empty argument leaves the
buffer unchanged; the root argument resets the buffer content to exactly
the root regardless of prior content; otherwise the content of the
argument is appended, with a slash separator inserted before it unless the
buffer content is empty or already ends in a slash; and `join` copies the
left path into a fresh buffer and pushes the right path onto it, so that
joining the empty path with itself is empty, the root joined with the
letter a is the root-anchored letter a, and anything joined with the root
is the root. -/
theorem push_join_spec :
    (∀ pb : PathBuf, PathBufInv pb → pb.push [] = some pb)
    ∧ (∀ pb : PathBuf, PathBufInv pb → ∀ pb2, pb.push [47] = some pb2 → pb2.deref = [47])
    ∧ (∀ pb : PathBuf, PathBufInv pb → ∀ p : Bytes, ValidPath p → p ≠ [] → p ≠ [47] →
        ∀ pb2, pb.push p = some pb2 →
          pb2.deref = pb.deref
            ++ (if pb.deref ≠ [] ∧ pb.deref.getLast? ≠ some 47 then [47] else []) ++ p)
    ∧ (∀ a b : Bytes, ValidPath a →
        ∃ pb, fromPath a = some pb ∧ pb.deref = a
          ∧ join a b = Option.map PathBuf.deref (pb.push b))
    ∧ join [] [] = some []
    ∧ join [47] [97] = some [47, 97]
    ∧ join [97] [47] = some [47] := by
  refine ⟨fun pb _ => push_nil pb,
    fun pb h pb2 hp => (push_root_parts pb h pb2 hp).1,
    fun pb h p hv hp hp47 pb2 hpush => (push_explicit pb h p hp hp47).2 pb2 hpush,
    ?_, ?_, ?_, ?_⟩
  · intro a b hva
    obtain ⟨hall, hlen⟩ := validPath_all hva
    obtain ⟨pb, hfp, hderef, _, _⟩ := fromPath_parts a hlen
    refine ⟨pb, hfp, hderef, ?_⟩
    simp only [join, hfp]
    cases hpb : pb.push b with
    | none => rfl
    | some pb2 => rfl
  · decide
  · decide
  · decide

set_option maxRecDepth 10000 in
/-- Witness for C6 at a concrete input: pushing the empty path onto the
fresh empty buffer leaves it unchanged. -/
theorem push_join_spec_witness : PathBuf.new.push [] = some PathBuf.new :=
  push_join_spec.1 PathBuf.new (by decide)

/-- C7: for every invariant-satisfying path buffer and valid non-empty,
non-root path argument, `push` fails loudly (models the assertion panic)
exactly when the existing content length plus the optional separator plus
the argument content length plus the terminator exceeds the fixed capacity
`PATH_MAX_PLUS_ONE`; and whenever it does not fail the stored content is
the full, untruncated concatenation. -/
theorem push_capacity_spec :
    ∀ pb : PathBuf, PathBufInv pb → ∀ p : Bytes, ValidPath p → p ≠ [] → p ≠ [47] →
      (pb.push p = none ↔
        PATH_MAX_PLUS_ONE < pb.deref.length
          + (if pb.deref ≠ [] ∧ pb.deref.getLast? ≠ some 47 then 1 else 0) + p.length + 1)
      ∧ (∀ pb2, pb.push p = some pb2 →
          pb2.deref = pb.deref
            ++ (if pb.deref ≠ [] ∧ pb.deref.getLast? ≠ some 47 then [47] else []) ++ p) :=
  fun pb h p _ hp hp47 => push_explicit pb h p hp hp47

set_option maxRecDepth 10000 in
/-- Witness for C7 at a concrete input: pushing a 255-byte path onto a
buffer already holding one byte of content overflows the capacity and
fails. -/
theorem push_capacity_spec_witness :
    (PathBuf.mk (97 :: 0 :: List.replicate 254 0) 2).push (List.replicate 255 98)
      = none := by
  have h := (push_capacity_spec ⟨97 :: 0 :: List.replicate 254 0, 2⟩ (by decide)
    (List.replicate 255 98) (by decide) (by decide) (by decide)).1.mpr (by decide)
  exact h

/-- C9: serializing a path buffer produces exactly its content bytes (the
buffer bytes before the terminator), deserializing the serialized bytes of
an invariant-satisfying buffer succeeds with a buffer of equal content
(path-buffer equality compares contents), and deserialization rejects any
input longer than `PATH_MAX`. -/
theorem serde_roundtrip_spec :
    (∀ pb : PathBuf, serialize pb = pb.buf.take (pb.len - 1))
    ∧ (∀ pb : PathBuf, PathBufInv pb →
        ∃ pb2, deserialize (serialize pb) = .ok pb2 ∧ pb2.deref = pb.deref)
    ∧ (∀ v : Bytes, v.length > PATH_MAX → deserialize v = .invalidLength) := by
  refine ⟨fun pb => rfl, ?_, ?_⟩
  · intro pb h
    obtain ⟨hb, h1, h2, _, hval⟩ := inv_parts h
    have hlen := deref_length h
    have hlenle : pb.deref.length ≤ PATH_MAX := by
      have h2' : pb.len ≤ 256 := h2
      show pb.deref.length ≤ 255
      omega
    obtain ⟨pb2, hfb, hd2, _⟩ := fromBytes_of_valid pb.deref hval hlenle
    refine ⟨pb2, ?_, hd2⟩
    show deserialize pb.deref = DeserializeResult.ok pb2
    simp only [deserialize]
    rw [if_neg (by omega : ¬ pb.deref.length > PATH_MAX)]
    simp only [hfb]
  · intro v hv
    simp only [deserialize]
    rw [if_pos hv]

set_option maxRecDepth 10000 in
/-- Witness for C9 at a concrete input: the fresh empty buffer round-trips
through serialization. -/
theorem serde_roundtrip_spec_witness :
    ∃ pb2, deserialize (serialize PathBuf.new) = .ok pb2
      ∧ pb2.deref = PathBuf.new.deref :=
  serde_roundtrip_spec.2.1 PathBuf.new (by decide)

set_option maxRecDepth 10000 in
/-- C10: the fresh buffer and the cleared buffer satisfy the invariant
(full-capacity backing array, length between one and the capacity, nul
terminator at the length position, valid content bytes before it);
`push` with a valid path argument preserves the invariant whenever it does
not panic; conversion from a valid path or from a byte slice passing the
conversion assertions establishes the invariant; and every
invariant-satisfying buffer dereferences to a valid path view. -/
theorem pathbuf_invariant_spec :
    PathBufInv PathBuf.new
    ∧ (∀ pb : PathBuf, PathBufInv pb.clear)
    ∧ (∀ pb : PathBuf, PathBufInv pb → ∀ p : Bytes, ValidPath p →
        ∀ pb2, pb.push p = some pb2 → PathBufInv pb2)
    ∧ (∀ p : Bytes, ValidPath p → ∃ pb, fromPath p = some pb ∧ PathBufInv pb ∧ pb.deref = p)
    ∧ (∀ v : Bytes, ∀ pb, fromBytes v = some pb → PathBufInv pb)
    ∧ (∀ pb : PathBuf, PathBufInv pb → ValidPath pb.deref) := by
  refine ⟨by decide, ?_, ?_, fromPath_inv, fromBytes_inv, ?_⟩
  · intro pb
    show PathBufInv (⟨List.replicate PATH_MAX_PLUS_ONE 0, 1⟩ : PathBuf)
    decide
  · intro pb h p hv pb2 hpush
    by_cases hp : p = []
    · subst hp
      rw [push_nil] at hpush
      injection hpush with hpush
      subst hpush
      exact h
    by_cases hp47 : p = [47]
    · subst hp47
      exact (push_root_parts pb h pb2 hpush).2
    by_cases hcap : pb.len + p.length + (if sepNeeded pb then 1 else 0) ≤ PATH_MAX_PLUS_ONE
    · exact push_append_inv pb p h hv hp hp47 hcap pb2 hpush
    · rw [push_append_none pb p hp hp47 hcap] at hpush
      cases hpush
  · intro pb h
    obtain ⟨hb, h1, h2, _, hval⟩ := inv_parts h
    apply validPath_of_all hval
    have hlen := deref_length h
    have h2' : pb.len ≤ 256 := h2
    show pb.deref.length ≤ 255
    omega

set_option maxRecDepth 10000 in
/-- Witness for C10 at a concrete input: converting the single-letter valid
path with content byte 97 yields an invariant-satisfying buffer holding it. -/
theorem pathbuf_invariant_spec_witness :
    ∃ pb, fromPath [97] = some pb ∧ PathBufInv pb ∧ pb.deref = [97] :=
  pathbuf_invariant_spec.2.2.2.1 [97] (by decide)

end LittleFS
